import Mathlib

set_option autoImplicit false

namespace Mkapidocs

/-! Shallow embedding of the merge engine of `packages/mkapidocs/yaml_utils.py`:
the format-preserving loader helpers (`_detect_yaml_indentation`,
`load_yaml_preserve_format`), the recursive ownership merger
(`_merge_yaml_in_place`), the top-level `merge_mkdocs_yaml` pipeline and the
`append_to_yaml_list` helper.

Parsed YAML documents are ordered mappings from string keys to values (Python
3.7+ dicts and ruamel `CommentedMap`s preserve insertion order), modelled as
association lists.  Scalars are limited to the kinds the merge logic actually
distinguishes (null, bool, int, string); floats do not occur in any claim.
A string scalar carries a `literal` flag modelling ruamel's
`LiteralScalarString` wrapper (block-scalar style); Python `==` ignores the
wrapper, which the embedding's `pyEqVal` mirrors. -/

/-- A parsed YAML value.  `map` entries keep document order. -/
inductive YVal where
  | null : YVal
  | bool (b : Bool) : YVal
  | int (n : Int) : YVal
  | str (s : String) (literal : Bool) : YVal
  | seq (elems : List YVal) : YVal
  | map (entries : List (String × YVal)) : YVal
deriving Repr

/-- A parsed YAML mapping (ordered association list), the `dict[str, object]`
of the source. -/
abbrev YMap := List (String × YVal)

/-- First value bound to `k`, the Python `d[k]` / `d.get(k)` lookup (a Python
dict has at most one entry per key). -/
def lookupList : YMap → String → Option YVal
  | [], _ => none
  | (k', v) :: rest, k => if k' = k then some v else lookupList rest k

/-- Python `k in d`. -/
def containsKey (l : YMap) (k : String) : Bool :=
  (lookupList l k).isSome

/-- Python `d[k] = v`: replace the value in place when the key exists
(keeping its position), otherwise append the new entry at the end. -/
def setKey : YMap → String → YVal → YMap
  | [], k, v => [(k, v)]
  | (k', v') :: rest, k, v =>
    if k' = k then (k', v) :: rest else (k', v') :: setKey rest k v

/-- The keys of a mapping, in order. -/
def keysOf (l : YMap) : List String :=
  l.map Prod.fst

/-- `true` when no key occurs twice: the invariant every Python dict enjoys. -/
def distinctKeys : List String → Bool
  | [] => true
  | k :: rest => !(decide (k ∈ rest)) && distinctKeys rest

/-! Python `==` on parsed YAML values.  Mirrors Python semantics: `True == 1`,
`LiteralScalarString(s) == s` (the style wrapper is ignored), dict comparison
is order-insensitive (same keys, equal values), list comparison is pointwise. -/
mutual

def pyEqVal (a b : YVal) : Bool :=
  match a, b with
  | .null, .null => true
  | .bool x, .bool y => x == y
  | .bool x, .int y => (if x then (1 : Int) else 0) == y
  | .int x, .bool y => x == (if y then (1 : Int) else 0)
  | .int x, .int y => x == y
  | .str x _, .str y _ => x == y
  | .seq x, .seq y => pyEqList x y
  | .map x, .map y => x.length == y.length && pyEqEntries x y
  | _, _ => false
termination_by structural a

def pyEqList (a b : List YVal) : Bool :=
  match a, b with
  | [], [] => true
  | x :: xs, y :: ys => pyEqVal x y && pyEqList xs ys
  | _, _ => false
termination_by structural a

def pyEqEntries (a b : YMap) : Bool :=
  match a with
  | [] => true
  | (k, v) :: rest =>
    (match lookupList b k with
     | some v' => pyEqVal v v'
     | none => false) && pyEqEntries rest b
termination_by structural a

end

/-- Python dict equality: same number of entries and every key of the first
bound to a Python-equal value in the second. -/
def pyEqMap (a b : YMap) : Bool :=
  a.length == b.length && pyEqEntries a b

/-! Rendering of values into the strings stored in change records
(`str(value)` in the source).  Python renders containers through the elements'
`repr`; the exact spelling is an abstraction here (for ruamel container types
Python's rendering differs in detail), and no claim inspects these strings. -/
mutual

def pyReprOne (v : YVal) : String :=
  match v with
  | .null => "None"
  | .bool b => if b then "True" else "False"
  | .int n => toString n
  | .str s _ => "'" ++ s ++ "'"
  | .seq l => "[" ++ String.intercalate ", " (pyReprList l) ++ "]"
  | .map l => "\x7b" ++ String.intercalate ", " (pyReprMap l) ++ "\x7d"
termination_by structural v

def pyReprList (l : List YVal) : List String :=
  match l with
  | [] => []
  | v :: rest => pyReprOne v :: pyReprList rest
termination_by structural l

def pyReprMap (l : YMap) : List String :=
  match l with
  | [] => []
  | (k, v) :: rest => ("'" ++ k ++ "': " ++ pyReprOne v) :: pyReprMap rest
termination_by structural l

end

def pyStr (v : YVal) : String :=
  match v with
  | .null => "None"
  | .bool b => if b then "True" else "False"
  | .int n => toString n
  | .str s _ => s
  | .seq l => "[" ++ String.intercalate ", " (pyReprList l) ++ "]"
  | .map l => "\x7b" ++ String.intercalate ", " (pyReprMap l) ++ "\x7d"

/-- `_preserve_scalar_style`: a string containing a newline is wrapped as a
`LiteralScalarString` (block scalar); everything else is returned unchanged. -/
def psVal : YVal → YVal
  | .str s lit => if s.toList.contains '\n' then .str s true else .str s lit
  | v => v

/-- `true` exactly when `psVal` leaves the value unchanged (no plain-style
multi-line string at the top). -/
def psStable : YVal → Bool
  | .str s lit => !s.toList.contains '\n' || lit
  | _ => true

/-- Python truthiness of a `d.get(k)` result (`None`, `False`, `0`, `""`,
empty containers are falsy). -/
def pyTruthy : Option YVal → Bool
  | none => false
  | some .null => false
  | some (.bool b) => b
  | some (.int n) => !(n == 0)
  | some (.str s _) => !(s == "")
  | some (.seq l) => !l.isEmpty
  | some (.map l) => !l.isEmpty

/-- Is the value a YAML mapping (`isinstance(v, dict)`)? -/
def isDict : YVal → Bool
  | .map _ => true
  | _ => false

/-- The entry list of a mapping value (and `[]` on anything else; only ever
applied under an `isDict` guard). -/
def asEntries : YVal → YMap
  | .map m => m
  | _ => []

/-- Is the value YAML null (Python `None`)? -/
def isNull : YVal → Bool
  | .null => true
  | _ => false

/-! Well-formedness: every mapping anywhere in the value has pairwise distinct
keys — the invariant any value parsed from a Python dict/ruamel CommentedMap
satisfies, assumed where Python-equality reflexivity is needed. -/
mutual

def wfVal (v : YVal) : Bool :=
  match v with
  | .map l => distinctKeys (keysOf l) && wfEntries l
  | .seq l => wfList l
  | _ => true
termination_by structural v

def wfList (l : List YVal) : Bool :=
  match l with
  | [] => true
  | v :: rest => wfVal v && wfList rest
termination_by structural l

def wfEntries (l : YMap) : Bool :=
  match l with
  | [] => true
  | (_, v) :: rest => wfVal v && wfEntries rest
termination_by structural l

end

/-- Well-formed document: distinct keys at the root and in every nested map. -/
def wfMap (l : YMap) : Bool :=
  distinctKeys (keysOf l) && wfEntries l

/-- `FileChange` of `yaml_utils.py`: one audit record per key visited. -/
structure FileChange where
  key_path : String
  action : String
  old_value : Option String := none
  new_value : Option String := none
deriving Repr, DecidableEq

/-- Dotted key-path construction: `f"{key_prefix}.{key}" if key_prefix else key`. -/
def joinPath (pfx k : String) : String :=
  if pfx = "" then k else pfx ++ "." ++ k

/-- The exact-or-prefix ownership test of `_merge_yaml_in_place`:
`current_path == owned_key or current_path.startswith(owned_key + ".")`
(`startswith` expressed over the character lists). -/
def isOwned (path : String) (owned : List String) : Bool :=
  owned.any fun ok => path == ok || (ok ++ ".").toList.isPrefixOf path.toList

/-- The message of the `CLIError` raised when nesting exceeds `max_depth`. -/
def depthErrorMsg (maxDepth : Nat) : String :=
  "YAML structure exceeds maximum nesting depth (" ++ toString maxDepth ++
    "). This may indicate a malformed configuration file or circular references."

/-- `existing_yaml.get(key)` as seen by the merge: Python collapses a missing
key and an explicit YAML null to the same `None`. -/
def getPy (l : YMap) (k : String) : YVal :=
  (lookupList l k).getD .null

/-- The change records the template-owned branch emits: nothing when the
values are already Python-equal, `added` when the prior value was
absent/null, `updated` otherwise. -/
def ownedStep (prior tv : YVal) (path : String) : List FileChange :=
  if pyEqVal prior tv then []
  else if isNull prior then
    [{ key_path := path, action := "added", new_value := some (pyStr tv) }]
  else
    [{ key_path := path, action := "updated", old_value := some (pyStr prior),
       new_value := some (pyStr tv) }]

/-- The final loop of `_merge_yaml_in_place`: a `preserved` record for every
key of the (mutated) existing document that the template does not mention. -/
def leftoverRecords (pfx : String) (E T : YMap) : List FileChange :=
  (E.filter fun e => !(containsKey T e.1)).map fun e =>
    { key_path := joinPath pfx e.1, action := "preserved",
      old_value := some (pyStr e.2) }

/-! The recursive ownership merger `_merge_yaml_in_place`, split into
`mergeStepGo` (the body of the `for key, template_value in
template_yaml.items()` loop, for one key), `mergeItemsGo` (the loop itself)
and `mergeLevel` (one whole invocation: loop plus the final leftover loop).
In-place mutation of `existing_yaml` is modelled by threading the updated
mapping.

The source guards recursion with `if depth > max_depth: raise CLIError(...)`
at function entry and recurses with `depth + 1`.  Here the remaining depth
budget `fuel = max_depth - depth` indexes the recursion instead
(`merge_yaml_in_place` below establishes `depth <= max_depth`, so the
correspondence is exact): entering a recursive call with
`depth + 1 > max_depth` is precisely calling `nestedAt owned maxDepth 0`. -/

/-- The loop body for one template key.  `nested` performs the recursive
merge of the mapping/mapping branch; it stands for the whole
`_merge_yaml_in_place` call at `depth + 1`, so its change list already
includes the nested level's leftover records (`changes.extend(nested_changes)`
in the source). -/
def mergeStepGo (owned : List String)
    (nested : String → YMap → YMap → Except String (YMap × List FileChange))
    (pfx : String) (E : YMap) (k : String) (tv : YVal) :
    Except String (YMap × List FileChange) :=
  let path := joinPath pfx k
  let prior := getPy E k
  if isOwned path owned then
    -- Template controls this key: always assign, record added/updated/nothing.
    .ok (setKey E k (psVal tv), ownedStep prior tv path)
  else if isDict tv && isDict prior then
    -- Both sides are nested mappings: recurse (in place) with depth + 1.
    match nested path (asEntries prior) (asEntries tv) with
    | .error e => .error e
    | .ok (em', cs) => .ok (setKey E k (.map em'), cs)
  else if isNull prior then
    -- New key from template (or an explicit null slot): add it.
    .ok (setKey E k (psVal tv),
      [{ key_path := path, action := "added",
         new_value := some (if isNull tv then "" else pyStr tv) }])
  else
    -- User customization: preserve, no mutation.
    .ok (E, [{ key_path := path, action := "preserved",
               old_value := some (pyStr prior) }])

/-- The template-key loop. -/
def mergeItemsGo (owned : List String)
    (nested : String → YMap → YMap → Except String (YMap × List FileChange))
    (pfx : String) : YMap → List (String × YVal) →
    Except String (YMap × List FileChange)
  | E, [] => .ok (E, [])
  | E, (k, tv) :: rest =>
    match mergeStepGo owned nested pfx E k tv with
    | .error e => .error e
    | .ok (E₁, csK) =>
      match mergeItemsGo owned nested pfx E₁ rest with
      | .error e => .error e
      | .ok (E₂, csR) => .ok (E₂, csK ++ csR)

/-- One whole `_merge_yaml_in_place` invocation with remaining depth budget
`fuel`: process every template key (a nested invocation at budget 0 is the
`depth > max_depth` entry check firing), then append the `preserved` records
for the existing keys the template does not mention. -/
def mergeLevel (owned : List String) (maxDepth : Nat) :
    Nat → String → YMap → YMap → Except String (YMap × List FileChange)
  | 0, pfx, E, T =>
    match mergeItemsGo owned (fun _ _ _ => .error (depthErrorMsg maxDepth))
        pfx E T with
    | .error e => .error e
    | .ok (E', cs) => .ok (E', cs ++ leftoverRecords pfx E' T)
  | fuel + 1, pfx, E, T =>
    match mergeItemsGo owned (mergeLevel owned maxDepth fuel) pfx E T with
    | .error e => .error e
    | .ok (E', cs) => .ok (E', cs ++ leftoverRecords pfx E' T)

/-- The nested-merge procedure available at remaining budget `fuel`. -/
def nestedAt (owned : List String) (maxDepth : Nat) :
    Nat → String → YMap → YMap → Except String (YMap × List FileChange)
  | 0 => fun _ _ _ => .error (depthErrorMsg maxDepth)
  | fuel + 1 => mergeLevel owned maxDepth fuel

/-- One loop iteration at remaining budget `fuel`. -/
def mergeStep (owned : List String) (maxDepth fuel : Nat) (pfx : String)
    (E : YMap) (k : String) (tv : YVal) :
    Except String (YMap × List FileChange) :=
  mergeStepGo owned (nestedAt owned maxDepth fuel) pfx E k tv

/-- The template-key loop at remaining budget `fuel`. -/
def mergeItems (owned : List String) (maxDepth fuel : Nat) (pfx : String)
    (E : YMap) (items : List (String × YVal)) :
    Except String (YMap × List FileChange) :=
  mergeItemsGo owned (nestedAt owned maxDepth fuel) pfx E items

/-- One full level of `_merge_yaml_in_place` minus the entry depth check:
process every template key, then append the `preserved` records for the
existing keys the template does not mention. -/
def mergeMapFuel (owned : List String) (maxDepth fuel : Nat) (pfx : String)
    (E T : YMap) : Except String (YMap × List FileChange) :=
  match mergeItems owned maxDepth fuel pfx E T with
  | .error e => .error e
  | .ok (E', cs) => .ok (E', cs ++ leftoverRecords pfx E' T)

/-- `_merge_yaml_in_place(existing_yaml, template_yaml, template_owned_keys,
key_prefix, depth, max_depth)`: returns the mutated existing document and the
ordered change list, or the `CLIError` message. -/
def merge_yaml_in_place (E T : YMap) (owned : List String)
    (pfx : String) (depth : Nat) (maxDepth : Nat) :
    Except String (YMap × List FileChange) :=
  if depth > maxDepth then .error (depthErrorMsg maxDepth)
  else mergeMapFuel owned maxDepth (maxDepth - depth) pfx E T

/-! Indentation detection.  `ruamel.yaml.util.load_yaml_guess_indent` is an
external library routine; `_detect_yaml_indentation` post-processes its
`(indent, block_seq_indent)` output, each component possibly `None`.  The
post-processing — all repository code — is embedded exactly; the guesser
itself stays an abstract parameter.  Crucially, the guesser round-trip-loads
the given text itself (its first return value, discarded as `_`, is the
parsed document) and raises `YAMLError` on malformed input with no internal
catch, so it is modelled as a fallible function; `_detect_yaml_indentation`
calls it unguarded, and so the error escapes to every caller. -/

/-- The arithmetic of `_detect_yaml_indentation` applied to the guesser's
output `(indent, block_seq_indent)`.  Note the Python truthiness test
`indent - offset if indent else 2`: a `None` or `0` indent falls back to 2. -/
def detectIndent : Option Int × Option Int → Int × Int × Int
  | (oi, obsi) =>
    let mapping0 : Int := oi.getD 2
    let offset : Int := obsi.getD 0
    let mapping : Int :=
      if offset > 0 then
        match oi with
        | some i => if i ≠ 0 then i - offset else 2
        | none => 2
      else mapping0
    (mapping, mapping, offset)

/-- `_detect_yaml_indentation(content)` over an abstract guesser: the
unguarded `load_yaml_guess_indent(content)` call raises on malformed input
(modelled as `.error` with the parser message), and its `(indent,
block_seq_indent)` output is post-processed by `detectIndent` otherwise. -/
def detect_yaml_indentation
    (guess : String → Except String (Option Int × Option Int))
    (content : String) : Except String (Int × Int × Int) :=
  match guess content with
  | .error e => .error e
  | .ok p => .ok (detectIndent p)

/-- Outcome of an external YAML parser invocation: a parsed value, or the
`YAMLError` message the parser raised. -/
inductive ParseOutcome where
  | ok (v : YVal) : ParseOutcome
  | err (msg : String) : ParseOutcome

/-- `load_yaml_preserve_format(path)` over abstract file-system state,
guesser and parser.  A missing or unreadable file yields `(None, (2, 2, 0))`
before anything is parsed.  The `_detect_yaml_indentation(content)` call
then precedes the guarded load and is itself unguarded, so a malformed text
makes the function raise the raw guesser error (`.error`, no file name
attached) rather than reach the `try`.  Only past that point does the
guarded load run: a parsed mapping root returns the detected indentation, a
non-mapping root or a (guesser-accepted, load-rejected) parse error falls
through to `(None, (2, 2, 0))`. -/
def load_yaml_preserve_format
    (guess : String → Except String (Option Int × Option Int))
    (parse : String → ParseOutcome) (pathExists readOk : Bool)
    (content : String) : Except String (Option YMap × (Int × Int × Int)) :=
  if !pathExists then .ok (none, (2, 2, 0))
  else if !readOk then .ok (none, (2, 2, 0))
  else
    match detect_yaml_indentation guess content with
    | .error e => .error e
    | .ok ind =>
      match parse content with
      | .ok (.map m) => .ok (some m, ind)
      | .ok _ => .ok (none, (2, 2, 0))
      | .err _ => .ok (none, (2, 2, 0))

/-- The existing-file load step of `merge_mkdocs_yaml`: a parse error becomes
a `CLIError` carrying the file name and the parser message; a non-mapping
root becomes the empty document. -/
def mergeMkdocsLoadExisting (parse : String → ParseOutcome)
    (fileName existingText : String) : Except String YMap :=
  match parse existingText with
  | .err e => .error ("Failed to parse existing " ++ fileName ++ ": " ++ e)
  | .ok (.map m) => .ok m
  | .ok _ => .ok []

/-- The template-owned key set of `yaml_utils.merge_mkdocs_yaml`: the fixed
baseline literal of lines 381-391 (as a list; the Python set's iteration
order is irrelevant to the exact-or-prefix matching), plus `site_url` /
`repo_url` when the parsed template holds truthy values for them. -/
def mkdocsTemplateOwnedKeys (template : YMap) : List String :=
  let base := ["plugins.gen-files.scripts", "plugins.search",
    "plugins.mkdocstrings", "plugins.mermaid2", "plugins.termynal",
    "plugins.literate-nav", "theme.name", "theme.palette",
    "markdown_extensions"]
  let s1 := if pyTruthy (lookupList template "site_url")
    then base ++ ["site_url"] else base
  if pyTruthy (lookupList template "repo_url")
    then s1 ++ ["repo_url"] else s1

/-! The template-side placeholder substitution of `merge_mkdocs_yaml`:
`re.sub(r"!!python/name:\S+", '"__PYTHON_TAG_PLACEHOLDER__"', template)`.
Modelled over character lists; `Char.isWhitespace` stands in for the regex
whitespace class (they agree on the ASCII characters of all inputs used). -/

/-- The literal part of the pattern, `!!python/name:`. -/
def pyTagLit : List Char := "!!python/name:".toList

/-- The replacement text, a double-quoted placeholder. -/
def placeholderLit : List Char := "\"__PYTHON_TAG_PLACEHOLDER__\"".toList

/-- Left-to-right, non-overlapping replacement of every match of
`!!python/name:\S+` (the literal followed by one or more non-whitespace
characters, matched greedily), structured over a character budget: every step
consumes at least one character, so running the scan with budget
`l.length` (as `subTags` below does) never reaches the exhausted-budget
arm — the budget only serves as the structural recursion measure. -/
def subTagsF : Nat → List Char → List Char
  | 0, l => l
  | _ + 1, [] => []
  | f + 1, c :: rest =>
    if pyTagLit.isPrefixOf (c :: rest)
        && !((c :: rest).drop 14 |>.takeWhile (fun ch => !ch.isWhitespace)).isEmpty then
      placeholderLit ++
        subTagsF f ((c :: rest).drop 14 |>.dropWhile (fun ch => !ch.isWhitespace))
    else
      c :: subTagsF f rest

/-- The replacement scan at its full budget. -/
def subTags (l : List Char) : List Char :=
  subTagsF l.length l

/-- Substring test (`needle in haystack` on Python strings). -/
def hasSubChars (l pat : List Char) : Bool :=
  if pat.isPrefixOf l then true
  else
    match l with
    | [] => false
    | _ :: rest => hasSubChars rest pat

/-- Python `pat in s`. -/
def strHasSub (s pat : String) : Bool :=
  hasSubChars s.toList pat.toList

/-- `re.sub(r"!!python/name:\S+", '"__PYTHON_TAG_PLACEHOLDER__"', t)`. -/
def subPythonTags (t : String) : String :=
  String.mk (subTags t.toList)

/-- The `template_for_parsing` computation of `merge_mkdocs_yaml` (and of
`cli._merge_mkdocs_yaml`): substitute placeholders only when the marker
occurs.  Nothing downstream ever reverses the substitution. -/
def templateForParsing (t : String) : String :=
  if strHasSub t "!!python/name:" then subPythonTags t else t

/-- `merge_mkdocs_yaml(existing_path, template_content)` with the external
collaborators abstracted: `guess` the indentation guesser, `parseRT` the
ruamel round-trip parser for the existing text, `parseSafe` the safe parser
for the placeholder-substituted template, `dump` the serializer (taking the
detected indentation profile).  Everything between those calls is repository
code, embedded exactly.  The unguarded `_detect_yaml_indentation` call on
the existing text comes first, so a malformed existing text raises the raw
guesser error before the `try` that would wrap a parse error into the
file-name-carrying `CLIError`; note also that the template text reaches the
rest of the pipeline only through `templateForParsing`. -/
def merge_mkdocs_yaml
    (guess : String → Except String (Option Int × Option Int))
    (parseRT parseSafe : String → ParseOutcome)
    (dump : Int × Int × Int → YMap → String)
    (fileName existingText templateContent : String) :
    Except String (String × List FileChange) :=
  match detect_yaml_indentation guess existingText with
  | .error e => .error e
  | .ok ind =>
    match mergeMkdocsLoadExisting parseRT fileName existingText with
    | .error e => .error e
    | .ok E =>
      match parseSafe (templateForParsing templateContent) with
      | .err e => .error ("Failed to parse template YAML: " ++ e)
      | .ok tval =>
        let T : YMap := match tval with | .map m => m | _ => []
        let owned := mkdocsTemplateOwnedKeys T
        match merge_yaml_in_place E T owned "" 0 50 with
        | .error e => .error e
        | .ok (E', cs) => .ok (dump ind E', cs)

/-- A concrete serializer instance used to exhibit merge output as text:
one `key: value` line per top-level entry, scalars rendered bare. -/
def dumpSimple (_ind : Int × Int × Int) (m : YMap) : String :=
  String.join (m.map fun e => e.1 ++ ": " ++ pyStr e.2 ++ "\n")

/-- The in-memory core of `append_to_yaml_list(file_path, key, value)` after
the file has been loaded: `none` models the `return False` taken when the
root is not a mapping (no write); `some m'` models a successful in-place
update followed by the write-back.  `raw_config.get(key)` collapses a missing
key and an explicit null to `None`, hence both take the create-new branch. -/
def append_to_yaml_list (root : YVal) (key : String) (entry : YMap) :
    Option YMap :=
  match root with
  | .map m =>
    some (match lookupList m key with
      | none => setKey m key (.seq [.map entry])
      | some .null => setKey m key (.seq [.map entry])
      | some (.seq l) => setKey m key (.seq (l ++ [.map entry]))
      | some v => setKey m key (.seq [v, .map entry]))
  | _ => none

/-- Value stored at a dotted path (given as its key list), descending only
through nested mappings. -/
def getPath (m : YMap) (path : List String) : Option YVal :=
  match path with
  | [] => some (.map m)
  | [k] => lookupList m k
  | k :: rest =>
    match lookupList m k with
    | some (.map m') => getPath m' rest
    | _ => none

/-- Synthetic document nested `n` mappings deep under key `a`. -/
def nestDoc : Nat → YVal
  | 0 => .str "leaf" false
  | n + 1 => .map [("a", nestDoc n)]

/-- The synthetic nested document as a root mapping. -/
def nestMap (n : Nat) : YMap :=
  [("a", nestDoc n)]

/-! Depth of nested-mapping chains inside the template: an upper bound on how
many recursive `_merge_yaml_in_place` calls any merge against this template
can spawn (recursion requires the template value to be a mapping). -/
mutual

def mapDepthVal : YVal → Nat
  | .map m => 1 + mapDepthItems m
  | _ => 0
termination_by structural v => v

def mapDepthItems : YMap → Nat
  | [] => 0
  | (_, v) :: rest => max (mapDepthVal v) (mapDepthItems rest)
termination_by structural items => items

end

/-- Every record in the list is a `preserved` record. -/
def allPreserved (cs : List FileChange) : Prop :=
  ∀ c ∈ cs, c.action = "preserved"

/-! Stability of a template subtree under self-merge (merging a subtree that
a previous pass copied verbatim into the existing document against itself):
at non-owned positions the template holds no nulls (a null would be
re-reported `added` on every pass) and recursion stays stable; at owned
positions the scalar-style coercion must be the identity. -/
mutual

def selfStableVal (owned : List String) (path : String) : YVal → Bool
  | .null => false
  | .map m => selfStableItems owned path m
  | _ => true
termination_by structural v => v

def selfStableItems (owned : List String) (pfx : String) : YMap → Bool
  | [] => true
  | (k, v) :: rest =>
    (if isOwned (joinPath pfx k) owned then psStable v
     else selfStableVal owned (joinPath pfx k) v)
    && selfStableItems owned pfx rest
termination_by structural items => items

end

/-! Stability of a template under re-merge of a previous merge's output:
no nulls at non-owned positions, and every non-owned template mapping both
re-merges stably and self-merges stably (the latter is needed when a first
pass copied it wholesale under a freshly added key). -/
mutual

def mergeStableVal (owned : List String) (path : String) : YVal → Bool
  | .null => false
  | .map m => mergeStableItems owned path m && selfStableItems owned path m
  | _ => true
termination_by structural v => v

def mergeStableItems (owned : List String) (pfx : String) : YMap → Bool
  | [] => true
  | (k, v) :: rest =>
    (if isOwned (joinPath pfx k) owned then true
     else mergeStableVal owned (joinPath pfx k) v)
    && mergeStableItems owned pfx rest
termination_by structural items => items

end

/-! ### Basic lemmas on the ordered-mapping operations -/

theorem lookupList_setKey_self (l : YMap) (k : String) (v : YVal) :
    lookupList (setKey l k v) k = some v := by
  induction l with
  | nil => simp [setKey, lookupList]
  | cons e rest ih =>
    obtain ⟨k', v'⟩ := e
    by_cases h : k' = k
    · simp [setKey, lookupList, h]
    · simp [setKey, lookupList, h, ih]

theorem lookupList_setKey_ne (l : YMap) (k : String) (v : YVal) (x : String)
    (h : x ≠ k) : lookupList (setKey l k v) x = lookupList l x := by
  induction l with
  | nil =>
    simp only [setKey, lookupList]
    rw [if_neg fun hh => h hh.symm]
  | cons e rest ih =>
    obtain ⟨k', v'⟩ := e
    by_cases hk : k' = k
    · subst hk
      simp only [setKey, if_pos rfl, lookupList]
      rw [if_neg fun hh => h hh.symm, if_neg fun hh => h hh.symm]
    · simp only [setKey, if_neg hk, lookupList]
      by_cases hx : k' = x
      · simp [hx]
      · simp [hx, ih]

theorem setKey_of_lookup_eq (l : YMap) (k : String) (v : YVal)
    (h : lookupList l k = some v) : setKey l k v = l := by
  induction l with
  | nil => simp [lookupList] at h
  | cons e rest ih =>
    obtain ⟨k', v'⟩ := e
    by_cases hk : k' = k
    · subst hk
      simp [lookupList] at h
      simp [setKey, h]
    · simp [lookupList, hk] at h
      simp [setKey, hk, ih h]

theorem containsKey_setKey (l : YMap) (k : String) (v : YVal) (x : String) :
    containsKey (setKey l k v) x = true ↔
      (containsKey l x = true ∨ x = k) := by
  by_cases h : x = k
  · subst h
    simp [containsKey, lookupList_setKey_self]
  · simp [containsKey, lookupList_setKey_ne l k v x h, h]

theorem lookupList_mem {l : YMap} {k : String} {v : YVal}
    (h : lookupList l k = some v) : (k, v) ∈ l := by
  induction l with
  | nil => simp [lookupList] at h
  | cons e rest ih =>
    obtain ⟨k', v'⟩ := e
    by_cases hk : k' = k
    · subst hk
      simp [lookupList] at h
      simp [h]
    · simp [lookupList, hk] at h
      exact List.mem_cons_of_mem _ (ih h)

theorem containsKey_of_mem {l : YMap} {k : String} {v : YVal}
    (h : (k, v) ∈ l) : containsKey l k = true := by
  induction l with
  | nil => simp at h
  | cons e rest ih =>
    obtain ⟨k', v'⟩ := e
    rcases List.mem_cons.mp h with h | h
    · injection h with h1 h2
      subst h1
      simp [containsKey, lookupList]
    · by_cases hk : k' = k
      · simp [containsKey, lookupList, hk]
      · simpa [containsKey, lookupList, hk] using ih h

theorem containsKey_iff_mem_keysOf (l : YMap) (k : String) :
    containsKey l k = true ↔ k ∈ keysOf l := by
  induction l with
  | nil => simp [containsKey, lookupList, keysOf]
  | cons e rest ih =>
    obtain ⟨k', v'⟩ := e
    by_cases hk : k' = k
    · simp [containsKey, lookupList, hk, keysOf]
    · simp only [containsKey, lookupList, if_neg hk, keysOf, List.map_cons,
        List.mem_cons]
      simp only [containsKey, keysOf] at ih
      rw [ih]
      constructor
      · exact fun h => Or.inr h
      · rintro (h | h)
        · exact absurd h.symm hk
        · exact h

theorem distinctKeys_lookup_of_mem {l : YMap} {k : String} {v : YVal}
    (hd : distinctKeys (keysOf l) = true) (hm : (k, v) ∈ l) :
    lookupList l k = some v := by
  induction l with
  | nil => simp at hm
  | cons e rest ih =>
    obtain ⟨k', v'⟩ := e
    simp only [keysOf, List.map_cons, distinctKeys, Bool.and_eq_true,
      Bool.not_eq_true', decide_eq_false_iff_not] at hd
    rcases List.mem_cons.mp hm with h | h
    · injection h with h1 h2
      subst h1; subst h2
      simp [lookupList]
    · by_cases hk : k' = k
      · subst hk
        exact absurd (List.mem_map_of_mem Prod.fst h) hd.1
      · simp only [keysOf] at ih
        simp [lookupList, hk, ih hd.2 h]

theorem keysOf_setKey (l : YMap) (k : String) (v : YVal) :
    keysOf (setKey l k v) =
      if containsKey l k then keysOf l else keysOf l ++ [k] := by
  induction l with
  | nil => simp [setKey, keysOf, containsKey, lookupList]
  | cons e rest ih =>
    obtain ⟨k', v'⟩ := e
    by_cases hk : k' = k
    · simp [setKey, hk, keysOf, containsKey, lookupList]
    · have hcc : containsKey ((k', v') :: rest) k = containsKey rest k := by
        simp [containsKey, lookupList, hk]
      simp only [setKey, if_neg hk, keysOf, List.map_cons, hcc]
      simp only [keysOf] at ih
      by_cases hc : containsKey rest k
      · simp [hc] at ih
        simp [hc, ih]
      · simp only [Bool.not_eq_true] at hc
        simp [hc] at ih
        simp [hc, ih]

theorem notMem_keysOf_of_not_contains {l : YMap} {k : String}
    (h : containsKey l k = false) : k ∉ keysOf l := by
  intro hmem
  rw [← containsKey_iff_mem_keysOf] at hmem
  rw [h] at hmem
  cases hmem

theorem distinctKeys_append_singleton {l : List String} {k : String}
    (hk : k ∉ l) (hd : distinctKeys l = true) :
    distinctKeys (l ++ [k]) = true := by
  induction l with
  | nil => simp [distinctKeys]
  | cons a rest ih =>
    simp only [distinctKeys, Bool.and_eq_true, Bool.not_eq_true',
      decide_eq_false_iff_not] at hd
    simp only [List.cons_append]
    simp only [distinctKeys, Bool.and_eq_true, Bool.not_eq_true',
      decide_eq_false_iff_not]
    refine ⟨?_, ih (fun h => hk (List.mem_cons_of_mem _ h)) hd.2⟩
    simp only [List.mem_append, List.mem_singleton]
    rintro (h | rfl)
    · exact hd.1 h
    · exact hk (List.mem_cons_self _ _)

theorem distinctKeys_setKey (l : YMap) (k : String) (v : YVal)
    (h : distinctKeys (keysOf l) = true) :
    distinctKeys (keysOf (setKey l k v)) = true := by
  rw [keysOf_setKey]
  by_cases hc : containsKey l k
  · simp [hc, h]
  · simp only [Bool.not_eq_true] at hc
    simp only [hc, Bool.false_eq_true, if_false]
    exact distinctKeys_append_singleton (notMem_keysOf_of_not_contains hc) h

/-! ### Size and well-formedness facts used for recursion over values -/

theorem sizeOf_lt_of_mem_vals {v : YVal} {l : List YVal} (h : v ∈ l) :
    sizeOf v < sizeOf l := by
  induction l with
  | nil => simp at h
  | cons a rest ih =>
    rcases List.mem_cons.mp h with rfl | h
    · simp
      omega
    · have := ih h
      simp
      omega

theorem sizeOf_lt_of_mem_entries {k : String} {v : YVal} {l : YMap}
    (h : (k, v) ∈ l) : sizeOf v < sizeOf l := by
  induction l with
  | nil => simp at h
  | cons a rest ih =>
    obtain ⟨k', v'⟩ := a
    rcases List.mem_cons.mp h with h | h
    · injection h with h1 h2
      subst h2
      simp
      omega
    · have := ih h
      simp
      omega

theorem wfList_mem_wf {l : List YVal} {v : YVal} (h : wfList l = true)
    (hm : v ∈ l) : wfVal v = true := by
  induction l with
  | nil => simp at hm
  | cons a rest ih =>
    simp only [wfList, Bool.and_eq_true] at h
    rcases List.mem_cons.mp hm with rfl | hm
    · exact h.1
    · exact ih h.2 hm

theorem wfEntries_mem_wf {l : YMap} {k : String} {v : YVal}
    (h : wfEntries l = true) (hm : (k, v) ∈ l) : wfVal v = true := by
  induction l with
  | nil => simp at hm
  | cons a rest ih =>
    obtain ⟨k', v'⟩ := a
    simp only [wfEntries, Bool.and_eq_true] at h
    rcases List.mem_cons.mp hm with hm | hm
    · injection hm with h1 h2
      subst h2
      exact h.1
    · exact ih h.2 hm

/-! ### Reflexivity of Python equality on well-formed values -/

theorem pyEqList_refl_of (l : List YVal)
    (h : ∀ v ∈ l, pyEqVal v v = true) : pyEqList l l = true := by
  induction l with
  | nil => simp [pyEqList]
  | cons a rest ih =>
    simp only [pyEqList, Bool.and_eq_true]
    exact ⟨h a (List.mem_cons_self _ _),
      ih fun v hv => h v (List.mem_cons_of_mem _ hv)⟩

theorem pyEqEntries_refl_of (l full : YMap)
    (h : ∀ (k : String) (v : YVal), (k, v) ∈ l →
      lookupList full k = some v ∧ pyEqVal v v = true) :
    pyEqEntries l full = true := by
  induction l with
  | nil => simp [pyEqEntries]
  | cons a rest ih =>
    obtain ⟨k, v⟩ := a
    obtain ⟨hl, hv⟩ := h k v (List.mem_cons_self _ _)
    simp only [pyEqEntries, hl, Bool.and_eq_true]
    exact ⟨hv, ih fun k' v' hm => h k' v' (List.mem_cons_of_mem _ hm)⟩

theorem pyEqVal_refl {v : YVal} (hw : wfVal v = true) :
    pyEqVal v v = true := by
  have main : ∀ (n : Nat) (v : YVal), sizeOf v ≤ n → wfVal v = true →
      pyEqVal v v = true := by
    intro n
    induction n with
    | zero =>
      intro v hs _
      exfalso
      cases v <;> simp at hs
    | succ n ih =>
      intro v hs hw
      cases v with
      | null => simp [pyEqVal]
      | bool b => simp [pyEqVal]
      | int m => simp [pyEqVal]
      | str s lit => simp [pyEqVal]
      | seq l =>
        have hsl : sizeOf l ≤ n := by
          simp at hs
          omega
        have hwl : wfList l = true := by simpa [wfVal] using hw
        have : pyEqList l l = true := by
          apply pyEqList_refl_of
          intro v hv
          have h1 : sizeOf v < sizeOf l := sizeOf_lt_of_mem_vals hv
          exact ih v (by omega) (wfList_mem_wf hwl hv)
        simpa [pyEqVal]
      | map l =>
        have hsl : sizeOf l ≤ n := by
          simp at hs
          omega
        have hwl : distinctKeys (keysOf l) = true ∧ wfEntries l = true := by
          simpa [wfVal] using hw
        have : pyEqEntries l l = true := by
          apply pyEqEntries_refl_of
          intro k v hm
          have h1 : sizeOf v < sizeOf l := sizeOf_lt_of_mem_entries hm
          exact ⟨distinctKeys_lookup_of_mem hwl.1 hm,
            ih v (by omega) (wfEntries_mem_wf hwl.2 hm)⟩
        simp [pyEqVal, pyEqMap, this]
  exact main (sizeOf v) v (Nat.le_refl _) hw

/-! ### Scalar-style coercion facts -/

theorem psVal_eq_of_psStable {v : YVal} (h : psStable v = true) :
    psVal v = v := by
  cases v <;> try rfl
  next s lit =>
    simp only [psStable] at h
    simp only [psVal]
    by_cases hc : s.toList.contains '\n' = true
    · rw [if_pos hc]
      rw [hc] at h
      simp only [Bool.not_true, Bool.false_or] at h
      rw [h]
    · rw [if_neg hc]

theorem isNull_psVal (v : YVal) : isNull (psVal v) = isNull v := by
  cases v <;> try rfl
  next s lit =>
    simp only [psVal]
    by_cases hc : s.toList.contains '\n' = true
    · rw [if_pos hc]
      rfl
    · rw [if_neg hc]

theorem isDict_psVal (v : YVal) : isDict (psVal v) = isDict v := by
  cases v <;> try rfl
  next s lit =>
    simp only [psVal]
    by_cases hc : s.toList.contains '\n' = true
    · rw [if_pos hc]
      rfl
    · rw [if_neg hc]

theorem psVal_map (m : YMap) : psVal (.map m) = .map m := rfl

theorem wfVal_psVal (v : YVal) : wfVal (psVal v) = wfVal v := by
  cases v <;> try rfl
  next s lit =>
    simp only [psVal]
    by_cases hc : s.toList.contains '\n' = true
    · rw [if_pos hc]
      rfl
    · rw [if_neg hc]

theorem pyEqVal_psVal_left (v w : YVal) :
    pyEqVal (psVal v) w = pyEqVal v w := by
  cases v <;> try rfl
  next s lit =>
    simp only [psVal]
    by_cases hc : s.toList.contains '\n' = true
    · rw [if_pos hc]
      cases w <;> rfl
    · rw [if_neg hc]

/-! ### Branch characterizations of one merge-loop iteration -/

theorem mergeLevel_eq_mapFuel (owned : List String) (maxD fuel : Nat)
    (pfx : String) (E T : YMap) :
    mergeLevel owned maxD fuel pfx E T =
      mergeMapFuel owned maxD fuel pfx E T := by
  cases fuel <;> rfl

theorem mergeItems_nil (owned : List String) (maxD fuel : Nat) (pfx : String)
    (E : YMap) : mergeItems owned maxD fuel pfx E [] = .ok (E, []) := rfl

theorem mergeItems_cons (owned : List String) (maxD fuel : Nat) (pfx : String)
    (E : YMap) (k : String) (tv : YVal) (rest : YMap) :
    mergeItems owned maxD fuel pfx E ((k, tv) :: rest) =
      match mergeStep owned maxD fuel pfx E k tv with
      | .error e => .error e
      | .ok (E₁, csK) =>
        match mergeItems owned maxD fuel pfx E₁ rest with
        | .error e => .error e
        | .ok (E₂, csR) => .ok (E₂, csK ++ csR) := rfl

theorem mergeStep_owned (owned : List String) (maxD fuel : Nat) (pfx : String)
    (E : YMap) (k : String) (tv : YVal)
    (h : isOwned (joinPath pfx k) owned = true) :
    mergeStep owned maxD fuel pfx E k tv =
      .ok (setKey E k (psVal tv), ownedStep (getPy E k) tv (joinPath pfx k)) := by
  unfold mergeStep mergeStepGo
  simp [h]

theorem mergeStep_nested (owned : List String) (maxD f : Nat) (pfx : String)
    (E : YMap) (k : String) (tm em : YMap)
    (h : isOwned (joinPath pfx k) owned = false)
    (hp : getPy E k = .map em) :
    mergeStep owned maxD (f + 1) pfx E k (.map tm) =
      match mergeItems owned maxD f (joinPath pfx k) em tm with
      | .error e => .error e
      | .ok (em', cs) =>
        .ok (setKey E k (.map em'),
          cs ++ leftoverRecords (joinPath pfx k) em' tm) := by
  unfold mergeStep mergeStepGo
  simp only [h, hp, Bool.false_eq_true, if_false, isDict, Bool.and_self,
    if_true, asEntries, nestedAt, mergeLevel_eq_mapFuel]
  unfold mergeMapFuel
  rcases hmi : mergeItems owned maxD f (joinPath pfx k) em tm
    with e | ⟨em', csN⟩ <;> simp [hmi]

theorem mergeStep_nested_zero (owned : List String) (maxD : Nat)
    (pfx : String) (E : YMap) (k : String) (tm em : YMap)
    (h : isOwned (joinPath pfx k) owned = false)
    (hp : getPy E k = .map em) :
    mergeStep owned maxD 0 pfx E k (.map tm) = .error (depthErrorMsg maxD) := by
  unfold mergeStep mergeStepGo
  simp [h, hp, isDict, asEntries, nestedAt]

theorem mergeStep_added (owned : List String) (maxD fuel : Nat) (pfx : String)
    (E : YMap) (k : String) (tv : YVal)
    (h : isOwned (joinPath pfx k) owned = false)
    (hp : getPy E k = .null) :
    mergeStep owned maxD fuel pfx E k tv =
      .ok (setKey E k (psVal tv),
        [{ key_path := joinPath pfx k, action := "added",
           new_value := some (if isNull tv then "" else pyStr tv) }]) := by
  unfold mergeStep mergeStepGo
  simp [h, hp, isDict, isNull]

theorem mergeStep_preserved (owned : List String) (maxD fuel : Nat)
    (pfx : String) (E : YMap) (k : String) (tv : YVal)
    (h : isOwned (joinPath pfx k) owned = false)
    (hd : isDict tv = false ∨ isDict (getPy E k) = false)
    (hn : isNull (getPy E k) = false) :
    mergeStep owned maxD fuel pfx E k tv =
      .ok (E, [{ key_path := joinPath pfx k, action := "preserved",
                 old_value := some (pyStr (getPy E k)) }]) := by
  unfold mergeStep mergeStepGo
  rcases hd with hd | hd <;> simp [h, hd, hn]

theorem isDict_iff_exists {v : YVal} : isDict v = true ↔ ∃ m, v = .map m := by
  cases v <;> simp [isDict]

theorem isNull_iff {v : YVal} : isNull v = true ↔ v = .null := by
  cases v <;> simp [isNull]

theorem containsKey_of_not_isNull_getPy {E : YMap} {k : String}
    (h : isNull (getPy E k) = false) : containsKey E k = true := by
  rcases h1 : lookupList E k with _ | w
  · rw [getPy, h1] at h
    simp [Option.getD, isNull] at h
  · simp [containsKey, h1]

/-- Any successful step either rebinds exactly its own key, or (preserved
branch) leaves the document untouched with the key already present. -/
theorem mergeStep_ok_shape {owned : List String} {maxD fuel : Nat}
    {pfx : String} {E : YMap} {k : String} {tv : YVal} {E₁ : YMap}
    {cs : List FileChange}
    (h : mergeStep owned maxD fuel pfx E k tv = .ok (E₁, cs)) :
    (∃ v, E₁ = setKey E k v) ∨ (E₁ = E ∧ containsKey E k = true) := by
  by_cases ho : isOwned (joinPath pfx k) owned = true
  · rw [mergeStep_owned _ _ _ _ _ _ _ ho] at h
    injection h with h'
    obtain ⟨h1, _⟩ := Prod.mk.injEq .. ▸ h'
    exact Or.inl ⟨psVal tv, h1.symm⟩
  · replace ho : isOwned (joinPath pfx k) owned = false := by
      simpa using ho
    by_cases hdd : (isDict tv && isDict (getPy E k)) = true
    · obtain ⟨htv, hpv⟩ := Bool.and_eq_true _ _ ▸ hdd
      obtain ⟨tm, rfl⟩ := isDict_iff_exists.mp htv
      obtain ⟨em, hem⟩ := isDict_iff_exists.mp hpv
      cases fuel with
      | zero =>
        rw [mergeStep_nested_zero _ _ _ _ _ _ _ ho hem] at h
        cases h
      | succ f =>
        rw [mergeStep_nested _ _ _ _ _ _ _ _ ho hem] at h
        rcases hmi : mergeItems owned maxD f (joinPath pfx k) em tm with e | ⟨em', csN⟩
        · rw [hmi] at h
          cases h
        · rw [hmi] at h
          injection h with h'
          obtain ⟨h1, _⟩ := Prod.mk.injEq .. ▸ h'
          exact Or.inl ⟨.map em', h1.symm⟩
    · have hd : isDict tv = false ∨ isDict (getPy E k) = false := by
        by_cases h1 : isDict tv = true
        · right
          by_cases h2 : isDict (getPy E k) = true
          · exact absurd (by simp [h1, h2]) hdd
          · simpa using h2
        · left
          simpa using h1
      by_cases hn : isNull (getPy E k) = true
      · rw [mergeStep_added _ _ _ _ _ _ _ ho (isNull_iff.mp hn)] at h
        injection h with h'
        obtain ⟨h1, _⟩ := Prod.mk.injEq .. ▸ h'
        exact Or.inl ⟨psVal tv, h1.symm⟩
      · replace hn : isNull (getPy E k) = false := by simpa using hn
        rw [mergeStep_preserved _ _ _ _ _ _ _ ho hd hn] at h
        injection h with h'
        obtain ⟨h1, _⟩ := Prod.mk.injEq .. ▸ h'
        exact Or.inr ⟨h1.symm, containsKey_of_not_isNull_getPy hn⟩

/-- Every successful step leaves every other key untouched. -/
theorem mergeStep_frame {owned : List String} {maxD fuel : Nat} {pfx : String}
    {E : YMap} {k : String} {tv : YVal} {E₁ : YMap} {cs : List FileChange}
    (h : mergeStep owned maxD fuel pfx E k tv = .ok (E₁, cs))
    (x : String) (hx : x ≠ k) : lookupList E₁ x = lookupList E x := by
  rcases mergeStep_ok_shape h with ⟨v, rfl⟩ | ⟨rfl, _⟩
  · exact lookupList_setKey_ne E k v x hx
  · rfl

/-- After a successful step the key set is the old key set plus the step's
key (the preserved branch requires the key to be present already). -/
theorem mergeStep_keys {owned : List String} {maxD fuel : Nat} {pfx : String}
    {E : YMap} {k : String} {tv : YVal} {E₁ : YMap} {cs : List FileChange}
    (h : mergeStep owned maxD fuel pfx E k tv = .ok (E₁, cs)) (x : String) :
    containsKey E₁ x = true ↔ (containsKey E x = true ∨ x = k) := by
  rcases mergeStep_ok_shape h with ⟨v, rfl⟩ | ⟨rfl, hk⟩
  · exact containsKey_setKey E k v x
  · constructor
    · exact fun hc => Or.inl hc
    · rintro (hc | rfl)
      · exact hc
      · exact hk

/-! ### Inversion and structure of the merge loop -/

theorem mergeItems_cons_ok {owned : List String} {maxD fuel : Nat}
    {pfx : String} {E : YMap} {k : String} {tv : YVal} {rest : YMap}
    {E' : YMap} {cs : List FileChange}
    (h : mergeItems owned maxD fuel pfx E ((k, tv) :: rest) = .ok (E', cs)) :
    ∃ E₁ csK csR, mergeStep owned maxD fuel pfx E k tv = .ok (E₁, csK) ∧
      mergeItems owned maxD fuel pfx E₁ rest = .ok (E', csR) ∧
      cs = csK ++ csR := by
  rw [mergeItems_cons] at h
  rcases hstep : mergeStep owned maxD fuel pfx E k tv with e1 | ⟨E₁, csK⟩
  · rw [hstep] at h
    cases h
  · rw [hstep] at h
    dsimp only at h
    rcases hrest : mergeItems owned maxD fuel pfx E₁ rest with e2 | ⟨E₂, csR⟩
    · rw [hrest] at h
      cases h
    · rw [hrest] at h
      injection h with h'
      obtain ⟨rfl, rfl⟩ := Prod.mk.injEq .. ▸ h'
      exact ⟨E₁, csK, csR, rfl, hrest, rfl⟩

theorem mergeItems_nil_ok {owned : List String} {maxD fuel : Nat}
    {pfx : String} {E E' : YMap} {cs : List FileChange}
    (h : mergeItems owned maxD fuel pfx E [] = .ok (E', cs)) :
    E' = E ∧ cs = [] := by
  rw [mergeItems_nil] at h
  injection h with h'
  obtain ⟨rfl, rfl⟩ := Prod.mk.injEq .. ▸ h'
  exact ⟨rfl, rfl⟩

theorem mergeMapFuel_ok {owned : List String} {maxD fuel : Nat}
    {pfx : String} {E T E' : YMap} {cs : List FileChange}
    (h : mergeMapFuel owned maxD fuel pfx E T = .ok (E', cs)) :
    ∃ cs₀, mergeItems owned maxD fuel pfx E T = .ok (E', cs₀) ∧
      cs = cs₀ ++ leftoverRecords pfx E' T := by
  unfold mergeMapFuel at h
  rcases hi : mergeItems owned maxD fuel pfx E T with e | ⟨E₂, cs₀⟩
  · rw [hi] at h
    cases h
  · rw [hi] at h
    injection h with h'
    obtain ⟨rfl, rfl⟩ := Prod.mk.injEq .. ▸ h'
    exact ⟨cs₀, rfl, rfl⟩

theorem mergeMapFuel_of_items {owned : List String} {maxD fuel : Nat}
    {pfx : String} {E T E' : YMap} {cs₀ : List FileChange}
    (h : mergeItems owned maxD fuel pfx E T = .ok (E', cs₀)) :
    mergeMapFuel owned maxD fuel pfx E T =
      .ok (E', cs₀ ++ leftoverRecords pfx E' T) := by
  unfold mergeMapFuel
  rw [h]

theorem merge_yaml_in_place_eq {E T : YMap} {owned : List String}
    {pfx : String} {depth maxD : Nat} (h : depth ≤ maxD) :
    merge_yaml_in_place E T owned pfx depth maxD =
      mergeMapFuel owned maxD (maxD - depth) pfx E T := by
  unfold merge_yaml_in_place
  rw [if_neg (by omega)]

/-- Processing a list of template keys never touches a key outside the list. -/
theorem mergeItems_frame {owned : List String} {maxD fuel : Nat}
    {pfx : String} :
    ∀ (items : YMap) (E E' : YMap) (cs : List FileChange),
      mergeItems owned maxD fuel pfx E items = .ok (E', cs) →
      ∀ x, x ∉ keysOf items → lookupList E' x = lookupList E x := by
  intro items
  induction items with
  | nil =>
    intro E E' cs h x _
    obtain ⟨rfl, rfl⟩ := mergeItems_nil_ok h
    rfl
  | cons e rest ih =>
    obtain ⟨k, tv⟩ := e
    intro E E' cs h x hx
    obtain ⟨E₁, csK, csR, hstep, hrest, rfl⟩ := mergeItems_cons_ok h
    simp only [keysOf, List.map_cons, List.mem_cons, not_or] at hx
    have hx1 : x ∉ keysOf rest := hx.2
    rw [ih E₁ E' csR hrest x hx1, mergeStep_frame hstep x hx.1]

/-- The key set after processing a list of template keys is the union of the
initial key set and the listed keys. -/
theorem mergeItems_keys {owned : List String} {maxD fuel : Nat}
    {pfx : String} :
    ∀ (items : YMap) (E E' : YMap) (cs : List FileChange),
      mergeItems owned maxD fuel pfx E items = .ok (E', cs) →
      ∀ x, containsKey E' x = true ↔
        (containsKey E x = true ∨ x ∈ keysOf items) := by
  intro items
  induction items with
  | nil =>
    intro E E' cs h x
    obtain ⟨rfl, rfl⟩ := mergeItems_nil_ok h
    simp [keysOf]
  | cons e rest ih =>
    obtain ⟨k, tv⟩ := e
    intro E E' cs h x
    obtain ⟨E₁, csK, csR, hstep, hrest, rfl⟩ := mergeItems_cons_ok h
    rw [ih E₁ E' csR hrest x, mergeStep_keys hstep x]
    simp only [keysOf, List.map_cons, List.mem_cons]
    tauto

/-! ### Well-formedness preservation and depth-bounded success -/

theorem wfEntries_setKey {l : YMap} {k : String} {v : YVal}
    (hl : wfEntries l = true) (hv : wfVal v = true) :
    wfEntries (setKey l k v) = true := by
  induction l with
  | nil => simp [setKey, wfEntries, hv]
  | cons e rest ih =>
    obtain ⟨k', v'⟩ := e
    simp only [wfEntries, Bool.and_eq_true] at hl
    by_cases hk : k' = k
    · simp [setKey, hk, wfEntries, hv, hl.2]
    · simp [setKey, hk, wfEntries, hl.1, ih hl.2]

theorem wfMap_setKey {l : YMap} {k : String} {v : YVal}
    (hl : wfMap l = true) (hv : wfVal v = true) :
    wfMap (setKey l k v) = true := by
  simp only [wfMap, Bool.and_eq_true] at hl ⊢
  exact ⟨distinctKeys_setKey l k v hl.1, wfEntries_setKey hl.2 hv⟩

theorem getPy_eq_map_lookup {E : YMap} {k : String} {m : YMap}
    (h : getPy E k = .map m) : lookupList E k = some (.map m) := by
  unfold getPy at h
  rcases hl : lookupList E k with _ | w
  · rw [hl] at h
    simp [Option.getD] at h
  · rw [hl] at h
    simp only [Option.getD] at h
    rw [h]

theorem wfMap_of_lookup_map {E : YMap} {k : String} {m : YMap}
    (hE : wfMap E = true) (h : lookupList E k = some (.map m)) :
    wfMap m = true := by
  have hv : wfVal (.map m) = true := by
    apply wfEntries_mem_wf _ (lookupList_mem h)
    simp only [wfMap, Bool.and_eq_true] at hE
    exact hE.2
  simpa [wfVal, wfMap] using hv

/-- A successful merge pass keeps the document well-formed. -/
theorem mergeItems_wf {owned : List String} {maxD : Nat} :
    ∀ (fuel : Nat) (pfx : String) (items E E' : YMap) (cs : List FileChange),
      wfMap E = true → wfEntries items = true →
      mergeItems owned maxD fuel pfx E items = .ok (E', cs) →
      wfMap E' = true := by
  intro fuel
  induction fuel using Nat.strong_induction_on with
  | _ fuel ihf =>
    intro pfx items
    induction items with
    | nil =>
      intro E E' cs hE _ h
      obtain ⟨rfl, _⟩ := mergeItems_nil_ok h
      exact hE
    | cons e rest ihr =>
      obtain ⟨k, tv⟩ := e
      intro E E' cs hE hT h
      obtain ⟨E₁, csK, csR, hstep, hrest, rfl⟩ := mergeItems_cons_ok h
      simp only [wfEntries, Bool.and_eq_true] at hT
      have hE₁ : wfMap E₁ = true := by
        by_cases ho : isOwned (joinPath pfx k) owned = true
        · rw [mergeStep_owned _ _ _ _ _ _ _ ho] at hstep
          injection hstep with h'
          obtain ⟨rfl, rfl⟩ := Prod.mk.injEq .. ▸ h'
          exact wfMap_setKey hE (by rw [wfVal_psVal]; exact hT.1)
        · replace ho : isOwned (joinPath pfx k) owned = false := by
            simpa using ho
          by_cases hdd : (isDict tv && isDict (getPy E k)) = true
          · obtain ⟨htv, hpv⟩ := Bool.and_eq_true _ _ ▸ hdd
            obtain ⟨tm, rfl⟩ := isDict_iff_exists.mp htv
            obtain ⟨em, hem⟩ := isDict_iff_exists.mp hpv
            cases fuel with
            | zero =>
              rw [mergeStep_nested_zero _ _ _ _ _ _ _ ho hem] at hstep
              cases hstep
            | succ f =>
              rw [mergeStep_nested _ _ _ _ _ _ _ _ ho hem] at hstep
              rcases hmi : mergeItems owned maxD f (joinPath pfx k) em tm
                with e1 | ⟨em', csN⟩
              · rw [hmi] at hstep
                cases hstep
              · rw [hmi] at hstep
                injection hstep with h'
                obtain ⟨rfl, rfl⟩ := Prod.mk.injEq .. ▸ h'
                have hwem : wfMap em = true :=
                  wfMap_of_lookup_map hE (getPy_eq_map_lookup hem)
                have hwtm : wfEntries tm = true := by
                  have := hT.1
                  simp only [wfVal, Bool.and_eq_true] at this
                  exact this.2
                have hwem' : wfMap em' = true :=
                  ihf f (by omega) (joinPath pfx k) tm em em' csN hwem hwtm hmi
                apply wfMap_setKey hE
                simpa [wfVal, wfMap] using hwem'
          · by_cases hn : isNull (getPy E k) = true
            · rw [mergeStep_added _ _ _ _ _ _ _ ho (isNull_iff.mp hn)] at hstep
              injection hstep with h'
              obtain ⟨rfl, rfl⟩ := Prod.mk.injEq .. ▸ h'
              exact wfMap_setKey hE (by rw [wfVal_psVal]; exact hT.1)
            · replace hn : isNull (getPy E k) = false := by simpa using hn
              have hd : isDict tv = false ∨ isDict (getPy E k) = false := by
                by_cases h1 : isDict tv = true
                · right
                  by_cases h2 : isDict (getPy E k) = true
                  · exact absurd (by simp [h1, h2]) hdd
                  · simpa using h2
                · left
                  simpa using h1
              rw [mergeStep_preserved _ _ _ _ _ _ _ ho hd hn] at hstep
              injection hstep with h'
              obtain ⟨rfl, rfl⟩ := Prod.mk.injEq .. ▸ h'
              exact hE
      exact ihr E₁ E' csR hE₁ hT.2 hrest

/-- A merge whose template nests no deeper than the remaining depth budget
cannot hit the depth guard. -/
theorem mergeItems_success {owned : List String} {maxD : Nat} :
    ∀ (fuel : Nat) (pfx : String) (items E : YMap),
      mapDepthItems items ≤ fuel →
      ∃ r, mergeItems owned maxD fuel pfx E items = .ok r := by
  intro fuel
  induction fuel using Nat.strong_induction_on with
  | _ fuel ihf =>
    intro pfx items
    induction items with
    | nil =>
      intro E _
      exact ⟨(E, []), mergeItems_nil _ _ _ _ _⟩
    | cons e rest ihr =>
      obtain ⟨k, tv⟩ := e
      intro E hd
      have hstep : ∃ E₁ csK,
          mergeStep owned maxD fuel pfx E k tv = .ok (E₁, csK) := by
        by_cases ho : isOwned (joinPath pfx k) owned = true
        · exact ⟨_, _, mergeStep_owned _ _ _ _ _ _ _ ho⟩
        · replace ho : isOwned (joinPath pfx k) owned = false := by
            simpa using ho
          by_cases hdd : (isDict tv && isDict (getPy E k)) = true
          · obtain ⟨htv, hpv⟩ := Bool.and_eq_true _ _ ▸ hdd
            obtain ⟨tm, rfl⟩ := isDict_iff_exists.mp htv
            obtain ⟨em, hem⟩ := isDict_iff_exists.mp hpv
            have hd1 : 1 + mapDepthItems tm ≤ fuel := by
              simp only [mapDepthItems, mapDepthVal] at hd
              omega
            cases fuel with
            | zero => omega
            | succ f =>
              obtain ⟨⟨em', csN⟩, hmi⟩ :=
                ihf f (by omega) (joinPath pfx k) tm em (by omega)
              refine ⟨setKey E k (.map em'),
                csN ++ leftoverRecords (joinPath pfx k) em' tm, ?_⟩
              rw [mergeStep_nested _ _ _ _ _ _ _ _ ho hem, hmi]
          · by_cases hn : isNull (getPy E k) = true
            · exact ⟨_, _, mergeStep_added _ _ _ _ _ _ _ ho (isNull_iff.mp hn)⟩
            · replace hn : isNull (getPy E k) = false := by simpa using hn
              have hdor : isDict tv = false ∨ isDict (getPy E k) = false := by
                by_cases h1 : isDict tv = true
                · right
                  by_cases h2 : isDict (getPy E k) = true
                  · exact absurd (by simp [h1, h2]) hdd
                  · simpa using h2
                · left
                  simpa using h1
              exact ⟨_, _, mergeStep_preserved _ _ _ _ _ _ _ ho hdor hn⟩
      obtain ⟨E₁, csK, hstep⟩ := hstep
      have hrest : mapDepthItems rest ≤ fuel := by
        cases tv <;> simp only [mapDepthItems, mapDepthVal] at hd <;> omega
      obtain ⟨⟨E₂, csR⟩, hmr⟩ := ihr E₁ hrest
      refine ⟨(E₂, csK ++ csR), ?_⟩
      rw [mergeItems_cons, hstep]
      dsimp only
      rw [hmr]

/-! ### Per-key behaviour of a merge pass -/

theorem getPy_congr {E₁ E : YMap} {k : String}
    (h : lookupList E₁ k = lookupList E k) : getPy E₁ k = getPy E k := by
  unfold getPy
  rw [h]

/-- Owned keys: the merged document binds the key to the (style-coerced)
template value, and the records of the pass contain exactly the
`ownedStep` contribution for this key at its position. -/
theorem mergeItems_owned_key {owned : List String} {maxD fuel : Nat}
    {pfx : String} :
    ∀ (items E E' : YMap) (cs : List FileChange) (k : String) (tv : YVal),
      distinctKeys (keysOf items) = true →
      mergeItems owned maxD fuel pfx E items = .ok (E', cs) →
      (k, tv) ∈ items →
      isOwned (joinPath pfx k) owned = true →
      lookupList E' k = some (psVal tv) ∧
        ∃ pre post,
          cs = pre ++ ownedStep (getPy E k) tv (joinPath pfx k) ++ post := by
  intro items
  induction items with
  | nil =>
    intro E E' cs k tv _ _ hm
    simp at hm
  | cons e rest ih =>
    obtain ⟨k₀, tv₀⟩ := e
    intro E E' cs k tv hdk h hm ho
    obtain ⟨E₁, csK, csR, hstep, hrest, rfl⟩ := mergeItems_cons_ok h
    simp only [keysOf, List.map_cons, distinctKeys, Bool.and_eq_true,
      Bool.not_eq_true', decide_eq_false_iff_not] at hdk
    rcases List.mem_cons.mp hm with hmeq | hmtail
    · injection hmeq with h1 h2
      subst h1
      subst h2
      rw [mergeStep_owned _ _ _ _ _ _ _ ho] at hstep
      injection hstep with h'
      obtain ⟨rfl, rfl⟩ := Prod.mk.injEq .. ▸ h'
      constructor
      · rw [mergeItems_frame rest _ E' csR hrest k hdk.1]
        exact lookupList_setKey_self E k (psVal tv)
      · exact ⟨[], csR, by simp⟩
    · have hk : k ≠ k₀ := by
        intro hcon
        exact hdk.1 (hcon ▸ List.mem_map_of_mem Prod.fst hmtail)
      have hlook : lookupList E₁ k = lookupList E k :=
        mergeStep_frame hstep k hk
      obtain ⟨hE', pre', post', hcs⟩ :=
        ih E₁ E' csR k tv hdk.2 hrest hmtail ho
      refine ⟨hE', csK ++ pre', post', ?_⟩
      rw [hcs, getPy_congr hlook]
      simp

/-- Non-owned customized keys: when the pair is not a mapping/mapping pair
the existing binding survives and a `preserved` record is contributed. -/
theorem mergeItems_preserved_key {owned : List String} {maxD fuel : Nat}
    {pfx : String} :
    ∀ (items E E' : YMap) (cs : List FileChange) (k : String) (tv v : YVal),
      distinctKeys (keysOf items) = true →
      mergeItems owned maxD fuel pfx E items = .ok (E', cs) →
      (k, tv) ∈ items →
      isOwned (joinPath pfx k) owned = false →
      lookupList E k = some v →
      isNull v = false →
      (isDict tv = false ∨ isDict v = false) →
      lookupList E' k = some v ∧
        ∃ pre post,
          cs = pre ++
            [{ key_path := joinPath pfx k, action := "preserved",
               old_value := some (pyStr v) }] ++ post := by
  intro items
  induction items with
  | nil =>
    intro E E' cs k tv v _ _ hm
    simp at hm
  | cons e rest ih =>
    obtain ⟨k₀, tv₀⟩ := e
    intro E E' cs k tv v hdk h hm ho hv hn hdor
    obtain ⟨E₁, csK, csR, hstep, hrest, rfl⟩ := mergeItems_cons_ok h
    simp only [keysOf, List.map_cons, distinctKeys, Bool.and_eq_true,
      Bool.not_eq_true', decide_eq_false_iff_not] at hdk
    have hgp : getPy E k = v := by
      unfold getPy
      rw [hv]
      rfl
    rcases List.mem_cons.mp hm with hmeq | hmtail
    · injection hmeq with h1 h2
      subst h1
      subst h2
      rw [mergeStep_preserved _ _ _ _ _ _ _ ho (by rw [hgp]; exact hdor)
        (by rw [hgp]; exact hn)] at hstep
      injection hstep with h'
      obtain ⟨rfl, rfl⟩ := Prod.mk.injEq .. ▸ h'
      constructor
      · rw [mergeItems_frame rest E E' csR hrest k hdk.1]
        exact hv
      · exact ⟨[], csR, by simp [hgp]⟩
    · have hk : k ≠ k₀ := by
        intro hcon
        exact hdk.1 (hcon ▸ List.mem_map_of_mem Prod.fst hmtail)
      have hlook : lookupList E₁ k = lookupList E k :=
        mergeStep_frame hstep k hk
      obtain ⟨hE', pre', post', hcs⟩ :=
        ih E₁ E' csR k tv v hdk.2 hrest hmtail ho (by rw [hlook]; exact hv) hn
          hdor
      exact ⟨hE', csK ++ pre', post', by rw [hcs]; simp⟩

/-- Every record of the leftover loop is a `preserved` record. -/
theorem leftoverRecords_all_preserved (pfx : String) (E T : YMap) :
    ∀ c ∈ leftoverRecords pfx E T, c.action = "preserved" := by
  intro c hc
  simp only [leftoverRecords, List.mem_map] at hc
  obtain ⟨e, _, rfl⟩ := hc
  rfl

/-- A key of the merged document missing from the template yields its
leftover `preserved` record. -/
theorem leftoverRecords_mem {pfx : String} {E T : YMap} {k : String}
    {v : YVal} (hl : lookupList E k = some v)
    (hT : containsKey T k = false) :
    ({ key_path := joinPath pfx k, action := "preserved",
       old_value := some (pyStr v) } : FileChange) ∈
      leftoverRecords pfx E T := by
  simp only [leftoverRecords, List.mem_map]
  refine ⟨(k, v), ?_, rfl⟩
  rw [List.mem_filter]
  exact ⟨lookupList_mem hl, by simp [hT]⟩

/-- No leftover records when every existing key occurs in the template. -/
theorem leftoverRecords_nil {pfx : String} {E T : YMap}
    (h : ∀ e ∈ E, containsKey T e.1 = true) :
    leftoverRecords pfx E T = [] := by
  unfold leftoverRecords
  rw [List.filter_eq_nil_iff.mpr]
  · rfl
  · intro e he
    simp [h e he]

/-! ### Idempotence of the merge -/

theorem allPreserved_nil : allPreserved [] := by
  intro c hc
  simp at hc

theorem allPreserved_append {a b : List FileChange}
    (ha : allPreserved a) (hb : allPreserved b) : allPreserved (a ++ b) := by
  intro c hc
  rcases List.mem_append.mp hc with hc | hc
  · exact ha c hc
  · exact hb c hc

/-- Merging a self-stable well-formed document into itself leaves it
unchanged and reports only `preserved` records. -/
theorem mergeItems_self {owned : List String} {maxD : Nat} :
    ∀ (fuel : Nat) (pfx : String) (T items : YMap),
      (∀ e ∈ items, lookupList T e.1 = some e.2) →
      selfStableItems owned pfx items = true →
      wfEntries items = true →
      mapDepthItems items ≤ fuel →
      ∃ cs, mergeItems owned maxD fuel pfx T items = .ok (T, cs) ∧
        allPreserved cs := by
  intro fuel
  induction fuel using Nat.strong_induction_on with
  | _ fuel ihf =>
    intro pfx T items
    induction items with
    | nil =>
      intro _ _ _ _
      exact ⟨[], mergeItems_nil _ _ _ _ _, allPreserved_nil⟩
    | cons e rest ihr =>
      obtain ⟨k, tv⟩ := e
      intro hlk hss hwf hdep
      have hlkh : lookupList T k = some tv := hlk (k, tv) (List.mem_cons_self _ _)
      have hgp : getPy T k = tv := by
        unfold getPy
        rw [hlkh]
        rfl
      unfold selfStableItems at hss
      simp only [Bool.and_eq_true] at hss
      simp only [wfEntries, Bool.and_eq_true] at hwf
      have hstep : ∃ csK, mergeStep owned maxD fuel pfx T k tv = .ok (T, csK) ∧
          allPreserved csK := by
        by_cases ho : isOwned (joinPath pfx k) owned = true
        · have hps : psVal tv = tv := by
            apply psVal_eq_of_psStable
            rw [ho] at hss
            simpa using hss.1
          have hrec : ownedStep (getPy T k) tv (joinPath pfx k) = [] := by
            rw [hgp]
            unfold ownedStep
            rw [if_pos (pyEqVal_refl hwf.1)]
          refine ⟨[], ?_, allPreserved_nil⟩
          rw [mergeStep_owned _ _ _ _ _ _ _ ho, hps,
            setKey_of_lookup_eq T k tv hlkh, hrec]
        · replace ho : isOwned (joinPath pfx k) owned = false := by
            simpa using ho
          rw [ho] at hss
          cases tv with
          | null => simp [selfStableVal] at hss
          | map tm =>
            have hwtm : distinctKeys (keysOf tm) = true ∧ wfEntries tm = true := by
              have := hwf.1
              simp only [wfVal, Bool.and_eq_true] at this
              exact this
            have hdep1 : 1 + mapDepthItems tm ≤ fuel := by
              simp only [mapDepthItems, mapDepthVal] at hdep
              omega
            cases fuel with
            | zero => omega
            | succ f =>
              have hsub := ihf f (by omega) (joinPath pfx k) tm tm
                (fun e he => distinctKeys_lookup_of_mem hwtm.1 (by
                  obtain ⟨k1, v1⟩ := e
                  exact he))
                (by simpa [selfStableVal] using hss.1) hwtm.2 (by omega)
              obtain ⟨csN, hmi, hcsN⟩ := hsub
              refine ⟨csN ++ leftoverRecords (joinPath pfx k) tm tm, ?_, ?_⟩
              · rw [mergeStep_nested _ _ _ _ _ _ _ _ ho hgp, hmi]
                dsimp only
                rw [setKey_of_lookup_eq T k (.map tm) hlkh]
              · exact allPreserved_append hcsN
                  (leftoverRecords_all_preserved _ _ _)
          | bool b =>
            refine ⟨_, mergeStep_preserved _ _ _ _ _ _ _ ho
              (Or.inl (by simp [isDict])) (by rw [hgp]; simp [isNull]), ?_⟩
            intro c hc
            simp only [List.mem_singleton] at hc
            subst hc
            rfl
          | int n =>
            refine ⟨_, mergeStep_preserved _ _ _ _ _ _ _ ho
              (Or.inl (by simp [isDict])) (by rw [hgp]; simp [isNull]), ?_⟩
            intro c hc
            simp only [List.mem_singleton] at hc
            subst hc
            rfl
          | str s lit =>
            refine ⟨_, mergeStep_preserved _ _ _ _ _ _ _ ho
              (Or.inl (by simp [isDict])) (by rw [hgp]; simp [isNull]), ?_⟩
            intro c hc
            simp only [List.mem_singleton] at hc
            subst hc
            rfl
          | seq l =>
            refine ⟨_, mergeStep_preserved _ _ _ _ _ _ _ ho
              (Or.inl (by simp [isDict])) (by rw [hgp]; simp [isNull]), ?_⟩
            intro c hc
            simp only [List.mem_singleton] at hc
            subst hc
            rfl
      obtain ⟨csK, hstep, hcsK⟩ := hstep
      have hdeprest : mapDepthItems rest ≤ fuel := by
        cases tv <;> simp only [mapDepthItems, mapDepthVal] at hdep <;> omega
      obtain ⟨csR, hmr, hcsR⟩ := ihr
        (fun e he => hlk e (List.mem_cons_of_mem _ he)) hss.2 hwf.2 hdeprest
      refine ⟨csK ++ csR, ?_, allPreserved_append hcsK hcsR⟩
      rw [mergeItems_cons, hstep]
      dsimp only
      rw [hmr]

/-- Re-running a merge pass on its own output changes nothing and reports
only `preserved` records, provided the template is merge-stable (no nulls at
non-owned positions, style-stable owned values inside copied subtrees) and
nests within the depth budget. -/
theorem mergeItems_idem {owned : List String} {maxD : Nat} :
    ∀ (fuel : Nat) (pfx : String) (items E E' : YMap) (cs : List FileChange),
      wfMap E = true →
      distinctKeys (keysOf items) = true →
      wfEntries items = true →
      mergeStableItems owned pfx items = true →
      mapDepthItems items ≤ fuel →
      mergeItems owned maxD fuel pfx E items = .ok (E', cs) →
      ∃ cs₂, mergeItems owned maxD fuel pfx E' items = .ok (E', cs₂) ∧
        allPreserved cs₂ := by
  intro fuel
  induction fuel using Nat.strong_induction_on with
  | _ fuel ihf =>
    intro pfx items
    induction items with
    | nil =>
      intro E E' cs _ _ _ _ _ h
      obtain ⟨rfl, rfl⟩ := mergeItems_nil_ok h
      exact ⟨[], mergeItems_nil _ _ _ _ _, allPreserved_nil⟩
    | cons e rest ihr =>
      obtain ⟨k, tv⟩ := e
      intro E E' cs hwE hdk hwT hms hdep h
      obtain ⟨E₁, csK, csR, hstep, hrest, rfl⟩ := mergeItems_cons_ok h
      simp only [keysOf, List.map_cons, distinctKeys, Bool.and_eq_true,
        Bool.not_eq_true', decide_eq_false_iff_not] at hdk
      simp only [wfEntries, Bool.and_eq_true] at hwT
      unfold mergeStableItems at hms
      simp only [Bool.and_eq_true] at hms
      have hdeprest : mapDepthItems rest ≤ fuel := by
        cases tv <;> simp only [mapDepthItems, mapDepthVal] at hdep <;> omega
      have hfr : lookupList E' k = lookupList E₁ k :=
        mergeItems_frame rest E₁ E' csR hrest k hdk.1
      have hmain : ∃ csK₂,
          mergeStep owned maxD fuel pfx E' k tv = .ok (E', csK₂) ∧
          allPreserved csK₂ ∧ wfMap E₁ = true := by
        by_cases ho : isOwned (joinPath pfx k) owned = true
        · rw [mergeStep_owned _ _ _ _ _ _ _ ho] at hstep
          injection hstep with h'
          obtain ⟨rfl, rfl⟩ := Prod.mk.injEq .. ▸ h'
          have hlk2 : lookupList E' k = some (psVal tv) := by
            rw [hfr]
            exact lookupList_setKey_self E k (psVal tv)
          have hgp2 : getPy E' k = psVal tv := by
            unfold getPy
            rw [hlk2]
            rfl
          have hrec : ownedStep (psVal tv) tv (joinPath pfx k) = [] := by
            unfold ownedStep
            rw [if_pos (by rw [pyEqVal_psVal_left]; exact pyEqVal_refl hwT.1)]
          refine ⟨[], ?_, allPreserved_nil,
            wfMap_setKey hwE (by rw [wfVal_psVal]; exact hwT.1)⟩
          rw [mergeStep_owned _ _ _ _ _ _ _ ho, hgp2, hrec,
            setKey_of_lookup_eq E' k (psVal tv) hlk2]
        · replace ho : isOwned (joinPath pfx k) owned = false := by
            simpa using ho
          rw [ho] at hms
          simp only [Bool.false_eq_true, if_false] at hms
          by_cases hdd : (isDict tv && isDict (getPy E k)) = true
          · obtain ⟨htv, hpv⟩ := Bool.and_eq_true _ _ ▸ hdd
            obtain ⟨tm, rfl⟩ := isDict_iff_exists.mp htv
            obtain ⟨em, hem⟩ := isDict_iff_exists.mp hpv
            obtain ⟨hmstm, hsstm⟩ : mergeStableItems owned (joinPath pfx k) tm = true ∧
                selfStableItems owned (joinPath pfx k) tm = true := by
              simpa [mergeStableVal] using hms.1
            have hwtm : distinctKeys (keysOf tm) = true ∧ wfEntries tm = true := by
              have := hwT.1
              simp only [wfVal, Bool.and_eq_true] at this
              exact this
            have hdtm : 1 + mapDepthItems tm ≤ fuel := by
              simp only [mapDepthItems, mapDepthVal] at hdep
              omega
            cases fuel with
            | zero => omega
            | succ f =>
              rw [mergeStep_nested _ _ _ _ _ _ _ _ ho hem] at hstep
              rcases hmi : mergeItems owned maxD f (joinPath pfx k) em tm
                with e1 | ⟨em', csN⟩
              · rw [hmi] at hstep
                cases hstep
              · rw [hmi] at hstep
                injection hstep with h'
                obtain ⟨rfl, rfl⟩ := Prod.mk.injEq .. ▸ h'
                have hwem : wfMap em = true :=
                  wfMap_of_lookup_map hwE (getPy_eq_map_lookup hem)
                obtain ⟨csN₂, hmi₂, hpN₂⟩ := ihf f (by omega) (joinPath pfx k)
                  tm em em' csN hwem hwtm.1 hwtm.2 hmstm (by omega) hmi
                have hlk2 : lookupList E' k = some (.map em') := by
                  rw [hfr]
                  exact lookupList_setKey_self E k (.map em')
                have hgp2 : getPy E' k = .map em' := by
                  unfold getPy
                  rw [hlk2]
                  rfl
                have hwem' : wfMap em' = true :=
                  mergeItems_wf f (joinPath pfx k) tm em em' csN hwem hwtm.2 hmi
                refine ⟨csN₂ ++ leftoverRecords (joinPath pfx k) em' tm, ?_,
                  allPreserved_append hpN₂ (leftoverRecords_all_preserved _ _ _),
                  wfMap_setKey hwE (by simpa [wfVal, wfMap] using hwem')⟩
                rw [mergeStep_nested _ _ _ _ _ _ _ _ ho hgp2, hmi₂]
                dsimp only
                rw [setKey_of_lookup_eq E' k (.map em') hlk2]
          · by_cases hn : isNull (getPy E k) = true
            · -- pass 1 added the key
              rw [mergeStep_added _ _ _ _ _ _ _ ho (isNull_iff.mp hn)] at hstep
              injection hstep with h'
              obtain ⟨rfl, rfl⟩ := Prod.mk.injEq .. ▸ h'
              have hlk2 : lookupList E' k = some (psVal tv) := by
                rw [hfr]
                exact lookupList_setKey_self E k (psVal tv)
              have hgp2 : getPy E' k = psVal tv := by
                unfold getPy
                rw [hlk2]
                rfl
              have hwE₁ : wfMap (setKey E k (psVal tv)) = true :=
                wfMap_setKey hwE (by rw [wfVal_psVal]; exact hwT.1)
              cases tv with
              | null => simp [mergeStableVal] at hms
              | map tm =>
                obtain ⟨hmstm, hsstm⟩ :
                    mergeStableItems owned (joinPath pfx k) tm = true ∧
                    selfStableItems owned (joinPath pfx k) tm = true := by
                  simpa [mergeStableVal] using hms.1
                have hwtm : distinctKeys (keysOf tm) = true ∧
                    wfEntries tm = true := by
                  have := hwT.1
                  simp only [wfVal, Bool.and_eq_true] at this
                  exact this
                have hdtm : 1 + mapDepthItems tm ≤ fuel := by
                  simp only [mapDepthItems, mapDepthVal] at hdep
                  omega
                cases fuel with
                | zero => omega
                | succ f =>
                  obtain ⟨csN₂, hmi₂, hpN₂⟩ := mergeItems_self f
                    (joinPath pfx k) tm tm
                    (fun e he => distinctKeys_lookup_of_mem hwtm.1 (by
                      obtain ⟨k1, v1⟩ := e
                      exact he))
                    hsstm hwtm.2 (by omega)
                  refine ⟨csN₂ ++ leftoverRecords (joinPath pfx k) tm tm, ?_,
                    allPreserved_append hpN₂
                      (leftoverRecords_all_preserved _ _ _), hwE₁⟩
                  rw [mergeStep_nested _ _ _ _ _ _ _ _ ho
                    (by simpa [psVal] using hgp2), hmi₂]
                  dsimp only
                  rw [setKey_of_lookup_eq E' k (.map tm)
                    (by simpa [psVal] using hlk2)]
              | bool b =>
                refine ⟨_, mergeStep_preserved _ _ _ _ _ _ _ ho
                  (Or.inl (by simp [isDict]))
                  (by rw [hgp2]; simp [psVal, isNull]), ?_, hwE₁⟩
                intro c hc
                simp only [List.mem_singleton] at hc
                subst hc
                rfl
              | int n =>
                refine ⟨_, mergeStep_preserved _ _ _ _ _ _ _ ho
                  (Or.inl (by simp [isDict]))
                  (by rw [hgp2]; simp [psVal, isNull]), ?_, hwE₁⟩
                intro c hc
                simp only [List.mem_singleton] at hc
                subst hc
                rfl
              | str s lit =>
                refine ⟨_, mergeStep_preserved _ _ _ _ _ _ _ ho
                  (Or.inl (by simp [isDict]))
                  (by rw [hgp2, isNull_psVal]; simp [isNull]), ?_, hwE₁⟩
                intro c hc
                simp only [List.mem_singleton] at hc
                subst hc
                rfl
              | seq l =>
                refine ⟨_, mergeStep_preserved _ _ _ _ _ _ _ ho
                  (Or.inl (by simp [isDict]))
                  (by rw [hgp2]; simp [psVal, isNull]), ?_, hwE₁⟩
                intro c hc
                simp only [List.mem_singleton] at hc
                subst hc
                rfl
            · -- pass 1 preserved the key
              replace hn : isNull (getPy E k) = false := by simpa using hn
              have hdor : isDict tv = false ∨ isDict (getPy E k) = false := by
                by_cases h1 : isDict tv = true
                · right
                  by_cases h2 : isDict (getPy E k) = true
                  · exact absurd (by simp [h1, h2]) hdd
                  · simpa using h2
                · left
                  simpa using h1
              rw [mergeStep_preserved _ _ _ _ _ _ _ ho hdor hn] at hstep
              injection hstep with h'
              obtain ⟨rfl, rfl⟩ := Prod.mk.injEq .. ▸ h'
              have hgp2 : getPy E' k = getPy E k := getPy_congr hfr
              refine ⟨_, mergeStep_preserved _ _ _ _ _ _ _ ho
                (by rw [hgp2]; exact hdor) (by rw [hgp2]; exact hn), ?_, hwE⟩
              intro c hc
              simp only [List.mem_singleton] at hc
              subst hc
              rfl
      obtain ⟨csK₂, hstep2, hpK₂, hwE₁⟩ := hmain
      obtain ⟨csR₂, hrest2, hpR₂⟩ :=
        ihr _ E' csR hwE₁ hdk.2 hwT.2 hms.2 hdeprest hrest
      refine ⟨csK₂ ++ csR₂, ?_, allPreserved_append hpK₂ hpR₂⟩
      rw [mergeItems_cons, hstep2]
      dsimp only
      rw [hrest2]

theorem merge_ok_depth_le {E T : YMap} {owned : List String} {pfx : String}
    {depth maxD : Nat} {r : YMap × List FileChange}
    (h : merge_yaml_in_place E T owned pfx depth maxD = .ok r) :
    depth ≤ maxD := by
  by_contra hlt
  unfold merge_yaml_in_place at h
  rw [if_pos (by omega)] at h
  cases h

/-! ### Claims -/

/-- C10: the merge never deletes a key — after any (possibly recursive)
successful `_merge_yaml_in_place` invocation, a key is bound in the mutated
existing mapping exactly when it was bound before the merge or occurs in the
template at that level. -/
theorem c10_merge_never_deletes {E T : YMap} {owned : List String}
    {pfx : String} {depth maxD : Nat} {E' : YMap} {cs : List FileChange}
    (h : merge_yaml_in_place E T owned pfx depth maxD = .ok (E', cs))
    (x : String) :
    containsKey E' x = true ↔
      (containsKey E x = true ∨ containsKey T x = true) := by
  rw [merge_yaml_in_place_eq (merge_ok_depth_le h)] at h
  obtain ⟨cs₀, hi, _⟩ := mergeMapFuel_ok h
  rw [mergeItems_keys T E E' cs₀ hi x, containsKey_iff_mem_keysOf T x]

/-- C10 witness: merging the one-key template `{b: 2}` into `{a: 1}` keeps
`a` and adds `b`. -/
theorem c10_merge_never_deletes_witness :
    containsKey [("a", YVal.int 1), ("b", YVal.int 2)] "a" = true ↔
      (containsKey [("a", YVal.int 1)] "a" = true ∨
        containsKey [("b", YVal.int 2)] "a" = true) :=
  @c10_merge_never_deletes [("a", .int 1)] [("b", .int 2)] [] "" 0 50
    [("a", YVal.int 1), ("b", YVal.int 2)]
    [{ key_path := "b", action := "added", new_value := some "2" },
     { key_path := "a", action := "preserved", old_value := some "1" }]
    rfl "a"

/-- C3: non-owned user values are never clobbered — for a key of the
existing document with a non-null value whose dotted path is not
template-owned, if the key is absent from the template, or the template's
value differs and the two values are not both mappings, the merge leaves the
key bound to its original value and a `preserved` record for its path occurs
in the change list. -/
theorem c3_preserved {E T : YMap} {owned : List String} {pfx : String}
    {depth maxD : Nat} {E' : YMap} {cs : List FileChange} {k : String}
    {v : YVal}
    (hdT : distinctKeys (keysOf T) = true)
    (h : merge_yaml_in_place E T owned pfx depth maxD = .ok (E', cs))
    (hv : lookupList E k = some v)
    (hnn : isNull v = false)
    (hno : isOwned (joinPath pfx k) owned = false)
    (hcase : containsKey T k = false ∨
      ∃ tv, (k, tv) ∈ T ∧ pyEqVal v tv = false ∧
        ¬(isDict tv = true ∧ isDict v = true)) :
    lookupList E' k = some v ∧
      ∃ pre post, cs = pre ++
        [{ key_path := joinPath pfx k, action := "preserved",
           old_value := some (pyStr v) }] ++ post := by
  rw [merge_yaml_in_place_eq (merge_ok_depth_le h)] at h
  obtain ⟨cs₀, hi, rfl⟩ := mergeMapFuel_ok h
  rcases hcase with hnc | ⟨tv, hmem, _, hnd⟩
  · have hE' : lookupList E' k = lookupList E k := by
      apply mergeItems_frame T E E' cs₀ hi k
      intro hmm
      have := (containsKey_iff_mem_keysOf T k).mpr hmm
      rw [hnc] at this
      cases this
    refine ⟨hE'.trans hv, ?_⟩
    obtain ⟨s, t, hst⟩ :=
      List.append_of_mem (@leftoverRecords_mem pfx _ _ _ _ (hE'.trans hv) hnc)
    exact ⟨cs₀ ++ s, t, by rw [hst]; simp⟩
  · have hnd' : isDict tv = false ∨ isDict v = false := by
      by_cases h1 : isDict tv = true
      · right
        by_cases h2 : isDict v = true
        · exact absurd ⟨h1, h2⟩ hnd
        · simpa using h2
      · left
        simpa using h1
    obtain ⟨hE', pre, post, hcs⟩ :=
      mergeItems_preserved_key T E E' cs₀ k tv v hdT hi hmem hno hv hnn hnd'
    exact ⟨hE', pre, post ++ leftoverRecords pfx E' T, by rw [hcs]; simp⟩

/-- C3 witness: a user-set scalar `x` survives a template that carries a
different scalar for `x`, with a `preserved` record emitted. -/
theorem c3_preserved_witness :
    lookupList [("x", YVal.str "user" false)] "x" =
        some (YVal.str "user" false) ∧
      ∃ pre post,
        [({ key_path := "x", action := "preserved",
            old_value := some "user" } : FileChange)] = pre ++
          [{ key_path := "x", action := "preserved",
             old_value := some "user" }] ++ post :=
  @c3_preserved [("x", .str "user" false)] [("x", .str "tmpl" false)] []
    "" 0 50 [("x", .str "user" false)]
    [{ key_path := "x", action := "preserved", old_value := some "user" }]
    "x" (.str "user" false)
    (by decide) rfl rfl rfl rfl
    (Or.inr ⟨.str "tmpl" false, List.mem_singleton.mpr rfl, rfl,
      by intro hh; exact absurd hh.1 (by decide)⟩)

/-- C4 counterexample: the owned-key set computed by
`yaml_utils.merge_mkdocs_yaml` does not contain `plugins.recently-updated`,
which the claim's fixed baseline includes (only the parallel
`cli._merge_mkdocs_yaml` variant lists it). -/
theorem c4_counterexample :
    ¬ ("plugins.recently-updated" ∈ mkdocsTemplateOwnedKeys []) := by
  decide

/-- C4 amended: membership in the owned-key set computed by
`merge_mkdocs_yaml` is exactly: one of the nine baseline entries (without
`plugins.recently-updated`), or `site_url` when the parsed template holds a
truthy `site_url`, or `repo_url` when it holds a truthy `repo_url`. -/
theorem c4_owned_key_set (template : YMap) (k : String) :
    k ∈ mkdocsTemplateOwnedKeys template ↔
      (k ∈ ["plugins.gen-files.scripts", "plugins.search",
        "plugins.mkdocstrings", "plugins.mermaid2", "plugins.termynal",
        "plugins.literate-nav", "theme.name", "theme.palette",
        "markdown_extensions"] ∨
       (k = "site_url" ∧ pyTruthy (lookupList template "site_url") = true) ∨
       (k = "repo_url" ∧ pyTruthy (lookupList template "repo_url") = true)) := by
  unfold mkdocsTemplateOwnedKeys
  by_cases h1 : pyTruthy (lookupList template "site_url") = true <;>
    by_cases h2 : pyTruthy (lookupList template "repo_url") = true <;>
      simp [h1, h2] <;> tauto

/-- C4 amended witness: with a truthy `site_url` in the template,
`site_url` is owned. -/
theorem c4_owned_key_set_witness :
    "site_url" ∈
        mkdocsTemplateOwnedKeys [("site_url", YVal.str "https://x" false)] ↔
      ("site_url" ∈ ["plugins.gen-files.scripts", "plugins.search",
        "plugins.mkdocstrings", "plugins.mermaid2", "plugins.termynal",
        "plugins.literate-nav", "theme.name", "theme.palette",
        "markdown_extensions"] ∨
       ("site_url" = "site_url" ∧
         pyTruthy (lookupList [("site_url", YVal.str "https://x" false)]
           "site_url") = true) ∨
       ("site_url" = "repo_url" ∧
         pyTruthy (lookupList [("site_url", YVal.str "https://x" false)]
           "repo_url") = true)) :=
  c4_owned_key_set [("site_url", .str "https://x" false)] "site_url"

/-- C7 counterexample: on malformed raw text the indentation guesser —
which round-trip-loads the text itself, unguarded, before either guarded
load — raises first, so both `merge_mkdocs_yaml` and
`load_yaml_preserve_format` propagate the raw parser error verbatim: the
message carries no file name (here `"boom"` does not contain
`"mkdocs.yml"`) and is not the claimed file-name-carrying document-format
error. -/
theorem c7_counterexample :
    merge_mkdocs_yaml (fun _ => .error "boom") (fun _ => .err "boom")
        (fun _ => .err "boom") dumpSimple "mkdocs.yml" "key: [" "a: 1" =
      .error "boom" ∧
    load_yaml_preserve_format (fun _ => .error "boom")
        (fun _ => .err "boom") true true "key: [" = .error "boom" ∧
    strHasSub "boom" "mkdocs.yml" = false :=
  ⟨rfl, rfl, by decide⟩

/-- C7 amended: when the guesser raises (malformed raw text), both
`merge_mkdocs_yaml` and `load_yaml_preserve_format` propagate the raw
parser error verbatim — fatal, unretried, without the file name; the
`CLIError` branch that does carry the file name and parser message fires
only when the guesser accepts the text yet the round-trip load of that same
text fails, and in that same regime `load_yaml_preserve_format` swallows
the parse error and returns the `(None, (2, 2, 0))` defaults. -/
theorem c7_parse_errors :
    (∀ (guess : String → Except String (Option Int × Option Int))
       (parseRT parseSafe : String → ParseOutcome)
       (dump : Int × Int × Int → YMap → String)
       (name text tmpl e : String),
      guess text = .error e →
      merge_mkdocs_yaml guess parseRT parseSafe dump name text tmpl =
        .error e) ∧
    (∀ (guess : String → Except String (Option Int × Option Int))
       (parse : String → ParseOutcome) (text e : String),
      guess text = .error e →
      load_yaml_preserve_format guess parse true true text = .error e) ∧
    (∀ (guess : String → Except String (Option Int × Option Int))
       (parseRT parseSafe : String → ParseOutcome)
       (dump : Int × Int × Int → YMap → String)
       (name text tmpl e : String) (p : Option Int × Option Int),
      guess text = .ok p → parseRT text = .err e →
      merge_mkdocs_yaml guess parseRT parseSafe dump name text tmpl =
        .error ("Failed to parse existing " ++ name ++ ": " ++ e)) ∧
    (∀ (guess : String → Except String (Option Int × Option Int))
       (parse : String → ParseOutcome) (text e : String)
       (p : Option Int × Option Int),
      guess text = .ok p → parse text = .err e →
      load_yaml_preserve_format guess parse true true text =
        .ok (none, (2, 2, 0))) := by
  refine ⟨?_, ?_, ?_, ?_⟩
  · intro guess parseRT parseSafe dump name text tmpl e h
    unfold merge_mkdocs_yaml detect_yaml_indentation
    rw [h]
  · intro guess parse text e h
    unfold load_yaml_preserve_format detect_yaml_indentation
    rw [h]
    rfl
  · intro guess parseRT parseSafe dump name text tmpl e p hg hp
    unfold merge_mkdocs_yaml detect_yaml_indentation mergeMkdocsLoadExisting
    rw [hg, hp]
  · intro guess parse text e p hg hp
    unfold load_yaml_preserve_format detect_yaml_indentation
    rw [hg, hp]
    rfl

/-- C7 amended witness: a concrete raw guesser error is propagated verbatim
by the pipeline; with an accepting guesser, the same parse error becomes
the file-name-carrying message in `merge_mkdocs_yaml` and is swallowed by
`load_yaml_preserve_format`. -/
theorem c7_parse_errors_witness :
    merge_mkdocs_yaml (fun _ => .error "boom") (fun _ => .err "boom")
        (fun _ => .err "boom") dumpSimple "site.yml" "key: [" "a: 1" =
      .error "boom" ∧
    merge_mkdocs_yaml (fun _ => .ok (none, none)) (fun _ => .err "boom")
        (fun _ => .err "boom") dumpSimple "site.yml" "key: [" "a: 1" =
      .error ("Failed to parse existing " ++ "site.yml" ++ ": " ++
        "boom") ∧
    load_yaml_preserve_format (fun _ => .ok (none, none))
        (fun _ => .err "boom") true true "key: [" =
      .ok (none, (2, 2, 0)) :=
  ⟨c7_parse_errors.1 (fun _ => .error "boom") (fun _ => .err "boom")
      (fun _ => .err "boom") dumpSimple "site.yml" "key: [" "a: 1" "boom"
      rfl,
   c7_parse_errors.2.2.1 (fun _ => .ok (none, none)) (fun _ => .err "boom")
      (fun _ => .err "boom") dumpSimple "site.yml" "key: [" "a: 1" "boom"
      (none, none) rfl rfl,
   c7_parse_errors.2.2.2 (fun _ => .ok (none, none)) (fun _ => .err "boom")
      "key: [" "boom" (none, none) rfl rfl⟩

/-- C8: `_detect_yaml_indentation` post-processing of the guesser output —
when a positive dash offset is detected together with a (truthy) base
indent, the mapping indent is the base indent minus the offset; the sequence
indent always equals the resolved mapping indent; and when detection yields
no values the result defaults to `(2, 2, 0)`. -/
theorem c8_detect_indentation :
    (∀ (guess : String → Except String (Option Int × Option Int))
       (content : String) (i o : Int),
      guess content = .ok (some i, some o) → 0 < o → i ≠ 0 →
      detect_yaml_indentation guess content = .ok (i - o, i - o, o)) ∧
    (∀ g : Option Int × Option Int,
      (detectIndent g).2.1 = (detectIndent g).1) ∧
    detectIndent (none, none) = (2, 2, 0) := by
  refine ⟨?_, ?_, rfl⟩
  · intro guess content i o hg ho hi
    unfold detect_yaml_indentation
    rw [hg]
    unfold detectIndent
    simp [Option.getD, ho, hi]
  · intro g
    obtain ⟨oi, obsi⟩ := g
    rfl

/-- C8 witness: a guessed `(indent, block_seq_indent) = (4, 2)` resolves to
mapping 2, sequence 2, offset 2 — the gitlab-ci style of the source's own
comment. -/
theorem c8_detect_indentation_witness :
    detect_yaml_indentation (fun _ => .ok (some 4, some 2)) "include:\n" =
      .ok (4 - 2, 4 - 2, 2) :=
  c8_detect_indentation.1 (fun _ => .ok (some 4, some 2)) "include:\n" 4 2
    rfl (by decide) (by decide)

/-- C9 counterexample: appending to a document whose key is present with an
explicit null stores a one-element sequence (the code's `get` collapses the
null to `None` and takes the create-new branch), not the claim's
two-element `[original value, entry]`. -/
theorem c9_counterexample :
    append_to_yaml_list (.map [("include", .null)]) "include"
        [("local", .str "b.yml" false)] =
      some [("include", .seq [.map [("local", .str "b.yml" false)]])] ∧
    (YVal.seq [.map [("local", .str "b.yml" false)]] ≠
      YVal.seq [.null, .map [("local", .str "b.yml" false)]]) := by
  refine ⟨rfl, ?_⟩
  intro h
  injection h with h'
  cases h'

/-- C9 amended: the `append_to_yaml_list` contract with the null case
corrected — absent-or-null creates a one-element sequence; an existing
sequence is appended to in place; a non-null non-sequence value becomes the
two-element sequence; other keys are untouched; a non-mapping root yields no
write (`False` return). -/
theorem c9_append_to_yaml_list (root : YVal) (key : String) (entry : YMap) :
    (isDict root = false → append_to_yaml_list root key entry = none) ∧
    (∀ m, root = .map m →
      ∃ m', append_to_yaml_list root key entry = some m' ∧
        ((lookupList m key = none ∨ lookupList m key = some .null) →
          lookupList m' key = some (.seq [.map entry])) ∧
        (∀ l, lookupList m key = some (.seq l) →
          lookupList m' key = some (.seq (l ++ [.map entry]))) ∧
        (∀ v, lookupList m key = some v → isNull v = false →
          (∀ l, v ≠ .seq l) →
          lookupList m' key = some (.seq [v, .map entry])) ∧
        (∀ x, x ≠ key → lookupList m' x = lookupList m x)) := by
  constructor
  · intro h
    cases root <;> first | rfl | simp [isDict] at h
  · rintro m rfl
    unfold append_to_yaml_list
    refine ⟨_, rfl, ?_, ?_, ?_, ?_⟩
    · rintro (hl | hl) <;> rw [hl] <;> exact lookupList_setKey_self m key _
    · intro l hl
      rw [hl]
      exact lookupList_setKey_self m key _
    · intro v hl hn hns
      rw [hl]
      cases v with
      | null => simp [isNull] at hn
      | seq l => exact absurd rfl (hns l)
      | bool b => exact lookupList_setKey_self m key _
      | int n => exact lookupList_setKey_self m key _
      | str s lit => exact lookupList_setKey_self m key _
      | map mm => exact lookupList_setKey_self m key _
    · intro x hx
      rcases hl : lookupList m key with _ | v
      · exact lookupList_setKey_ne m key _ x hx
      · cases v <;> exact lookupList_setKey_ne m key _ x hx

/-- C9 amended witness: appending `{local: b.yml}` to
`{include: [{local: a.yml}]}` appends at the end with the existing entry
intact. -/
theorem c9_append_to_yaml_list_witness :
    ∃ m', append_to_yaml_list
        (.map [("include", .seq [.map [("local", .str "a.yml" false)]])])
        "include" [("local", .str "b.yml" false)] = some m' ∧
      lookupList m' "include" =
        some (.seq ([.map [("local", .str "a.yml" false)]] ++
          [.map [("local", .str "b.yml" false)]])) := by
  obtain ⟨m', hm', _, happ, _, _⟩ :=
    (c9_append_to_yaml_list
      (.map [("include", .seq [.map [("local", .str "a.yml" false)]])])
      "include" [("local", .str "b.yml" false)]).2
      [("include", .seq [.map [("local", .str "a.yml" false)]])] rfl
  exact ⟨m', hm', happ [.map [("local", .str "a.yml" false)]] rfl⟩

/-- C2 counterexample: with owned set `{theme.name}`, existing
`{theme: "foo"}` and template `{theme: {name: "material"}}`, the merge
preserves the scalar `theme` (non-owned ancestor, not a mapping/mapping
pair) and stores nothing at the owned path `theme.name`, contradicting the
claim that the merged value at every owned path equals the template's
value. -/
theorem c2_counterexample :
    merge_yaml_in_place [("theme", YVal.str "foo" false)]
        [("theme", .map [("name", YVal.str "material" false)])]
        ["theme.name"] "" 0 50 =
      .ok ([("theme", YVal.str "foo" false)],
        [{ key_path := "theme", action := "preserved",
           old_value := some "foo" }]) ∧
    getPath [("theme", YVal.str "foo" false)] ["theme", "name"] = none := by
  exact ⟨rfl, rfl⟩

/-- C2 amended: ownership precedence for every key the merge visits — in
any (possibly recursive) `_merge_yaml_in_place` invocation, a template key
whose current dotted path is owned is always rebound to the template's
(style-coerced) value, whatever the prior value's type, and the records
contributed by that key are exactly `ownedStep`: `added` when the prior
value was absent/null, `updated` when it differs under Python equality, and
nothing when the two values are already equal. -/
theorem c2_owned_amended {E T : YMap} {owned : List String} {pfx : String}
    {depth maxD : Nat} {E' : YMap} {cs : List FileChange} {k : String}
    {tv : YVal}
    (hdT : distinctKeys (keysOf T) = true)
    (h : merge_yaml_in_place E T owned pfx depth maxD = .ok (E', cs))
    (hmem : (k, tv) ∈ T)
    (ho : isOwned (joinPath pfx k) owned = true) :
    lookupList E' k = some (psVal tv) ∧
      ∃ pre post,
        cs = pre ++ ownedStep (getPy E k) tv (joinPath pfx k) ++ post := by
  rw [merge_yaml_in_place_eq (merge_ok_depth_le h)] at h
  obtain ⟨cs₀, hi, rfl⟩ := mergeMapFuel_ok h
  obtain ⟨hE', pre, post, hcs⟩ :=
    mergeItems_owned_key T E E' cs₀ k tv hdT hi hmem ho
  exact ⟨hE', pre, post ++ leftoverRecords pfx E' T, by rw [hcs]; simp⟩

/-- C2 amended witness: inside the recursive call for `theme`
(`key_prefix = "theme"`, depth 1), the owned key `theme.name` overwrites
the user's scalar and contributes exactly one `updated` record. -/
theorem c2_owned_amended_witness :
    lookupList [("name", YVal.str "new" false)] "name" =
        some (psVal (.str "new" false)) ∧
      ∃ pre post,
        [({ key_path := "theme.name", action := "updated",
            old_value := some "old", new_value := some "new" } : FileChange)] =
          pre ++ ownedStep (getPy [("name", YVal.str "old" false)] "name")
            (.str "new" false) (joinPath "theme" "name") ++ post :=
  @c2_owned_amended [("name", .str "old" false)] [("name", .str "new" false)]
    ["theme.name"] "theme" 1 50 [("name", YVal.str "new" false)]
    [{ key_path := "theme.name", action := "updated",
       old_value := some "old", new_value := some "new" }]
    "name" (.str "new" false) (by decide) rfl
    (List.mem_singleton.mpr rfl) rfl

set_option maxRecDepth 8000 in
/-- C6: depth guard — any merge whose template nests within the configured
limit completes without the structural error; the synthetic document nested
51 mappings deep (one level beyond what a budget of 50 recursive calls can
traverse) raises the `CLIError` whose message names the configured limit. -/
theorem c6_depth_guard :
    (∀ (E T : YMap) (owned : List String) (maxD : Nat),
      mapDepthItems T ≤ maxD →
      ∃ r, merge_yaml_in_place E T owned "" 0 maxD = .ok r) ∧
    merge_yaml_in_place (nestMap 51) (nestMap 51) [] "" 0 50 =
      .error (depthErrorMsg 50) ∧
    depthErrorMsg 50 =
      "YAML structure exceeds maximum nesting depth (50). " ++
        "This may indicate a malformed configuration file or circular references." := by
  refine ⟨?_, rfl, rfl⟩
  intro E T owned maxD hd
  rw [merge_yaml_in_place_eq (Nat.zero_le _), Nat.sub_zero]
  obtain ⟨⟨E', cs₀⟩, hi⟩ := mergeItems_success maxD "" T E hd
  exact ⟨(E', cs₀ ++ leftoverRecords "" E' T), mergeMapFuel_of_items hi⟩

/-- C6 witness: a flat template nests within the limit and merges without
the structural error. -/
theorem c6_depth_guard_witness :
    mapDepthItems [("a", YVal.int 1)] ≤ 50 ∧
    ∃ r, merge_yaml_in_place [] [("a", YVal.int 1)] [] "" 0 50 = .ok r :=
  ⟨by decide, c6_depth_guard.1 [] [("a", .int 1)] [] 50 (by decide)⟩

/-- C1 counterexample: existing `{}` merged with template `{a: null}` (the
owned set computed by `merge_mkdocs_yaml` for that template) adds `a`; the
serialized result re-loads as `{a: null}` (round-trip fidelity of the
serializer), and the second pass on exactly that document emits another
`added` record — not only `preserved` ones — because `dict.get` collapses
the stored null with a missing key. -/
theorem c1_counterexample :
    merge_yaml_in_place [] [("a", YVal.null)]
        (mkdocsTemplateOwnedKeys [("a", YVal.null)]) "" 0 50 =
      .ok ([("a", YVal.null)],
        [{ key_path := "a", action := "added", new_value := some "" }]) ∧
    merge_yaml_in_place [("a", YVal.null)] [("a", YVal.null)]
        (mkdocsTemplateOwnedKeys [("a", YVal.null)]) "" 0 50 =
      .ok ([("a", YVal.null)],
        [{ key_path := "a", action := "added", new_value := some "" }]) ∧
    ({ key_path := "a", action := "added",
       new_value := some "" } : FileChange).action ≠ "preserved" := by
  refine ⟨rfl, rfl, by decide⟩

/-- C1 amended: the merge is idempotent end-to-end provided the template is
merge-stable (no nulls at non-owned positions, no plain-style multi-line
string at an owned position inside a non-owned subtree) and nests within
the depth limit: for any round-tripping serializer/loader pair, re-merging
the re-loaded first-pass output succeeds, changes nothing (so the
serialized text is byte-identical across the passes), and reports only
`preserved` records. -/
theorem c1_idempotent_amended {E T E₁ : YMap} {owned : List String}
    {cs₁ : List FileChange}
    (hwE : wfMap E = true) (hwT : wfMap T = true)
    (hms : mergeStableItems owned "" T = true)
    (hdep : mapDepthItems T ≤ 50)
    (h1 : merge_yaml_in_place E T owned "" 0 50 = .ok (E₁, cs₁))
    (ser : YMap → String) (load : String → Option YMap)
    (hrt : load (ser E₁) = some E₁) :
    ∃ cs₂, merge_yaml_in_place ((load (ser E₁)).getD []) T owned "" 0 50 =
        .ok (E₁, cs₂) ∧
      allPreserved cs₂ ∧
      ∀ E₂ cs₂',
        merge_yaml_in_place ((load (ser E₁)).getD []) T owned "" 0 50 =
          .ok (E₂, cs₂') → ser E₂ = ser E₁ := by
  rw [hrt]
  simp only [Option.getD]
  rw [merge_yaml_in_place_eq (by omega)] at h1 ⊢
  simp only [Nat.sub_zero] at h1 ⊢
  obtain ⟨cs₀, hi, rfl⟩ := mergeMapFuel_ok h1
  have hwT' : distinctKeys (keysOf T) = true ∧ wfEntries T = true := by
    simpa [wfMap, Bool.and_eq_true] using hwT
  obtain ⟨cs₂i, hi₂, hp₂⟩ :=
    mergeItems_idem 50 "" T E E₁ cs₀ hwE hwT'.1 hwT'.2 hms hdep hi
  refine ⟨cs₂i ++ leftoverRecords "" E₁ T, mergeMapFuel_of_items hi₂,
    allPreserved_append hp₂ (leftoverRecords_all_preserved _ _ _), ?_⟩
  intro E₂ cs₂' h2
  rw [mergeMapFuel_of_items hi₂] at h2
  injection h2 with h'
  obtain ⟨h1', _⟩ := Prod.mk.injEq .. ▸ h'
  rw [← h1']

/-- C1 amended witness: a fresh `mkdocs.yml`-style template with an owned
`theme.name` merges into an empty document; the second pass on the
(re-loaded) result changes nothing and reports only `preserved` records. -/
theorem c1_idempotent_amended_witness :
    ∃ cs₂, merge_yaml_in_place
        [("theme", YVal.map [("name", YVal.str "material" false)])]
        [("theme", YVal.map [("name", YVal.str "material" false)])]
        ["theme.name"] "" 0 50 =
        .ok ([("theme", YVal.map [("name", YVal.str "material" false)])],
          cs₂) ∧
      allPreserved cs₂ := by
  obtain ⟨cs₂, hmerge, hpres, _⟩ := @c1_idempotent_amended
    [] [("theme", .map [("name", .str "material" false)])]
    [("theme", .map [("name", .str "material" false)])]
    ["theme.name"]
    [{ key_path := "theme", action := "added",
       new_value := some (pyStr (.map [("name", .str "material" false)])) }]
    (by decide) (by decide) (by decide) (by decide) rfl
    (fun _ => "")
    (fun _ => some [("theme", .map [("name", .str "material" false)])]) rfl
  exact ⟨cs₂, hmerge, hpres⟩

set_option maxRecDepth 8000 in
/-- C5: the template-side `!!python/name:` substitution of
`merge_mkdocs_yaml` is never reversed.  At the shipped template fragment
`custom_fence: !!python/name:mermaid2.fence_mermaid_custom` the text handed
to the structural parser carries the quoted placeholder and no longer the
tag payload, and the merged output text (for any existing document without
that key — here the empty one, with the safe parser's behaviour on the
substituted text supplied concretely) contains the placeholder string
`__PYTHON_TAG_PLACEHOLDER__` instead of the tag, so the tag is not
re-emitted with its payload. -/
theorem c5_template_tag_lost :
    strHasSub "custom_fence: !!python/name:mermaid2.fence_mermaid_custom\n"
        "!!python/name:" = true ∧
    templateForParsing
        "custom_fence: !!python/name:mermaid2.fence_mermaid_custom\n" =
      "custom_fence: \"__PYTHON_TAG_PLACEHOLDER__\"\n" ∧
    strHasSub "custom_fence: \"__PYTHON_TAG_PLACEHOLDER__\"\n"
        "mermaid2.fence_mermaid_custom" = false ∧
    merge_mkdocs_yaml (fun _ => .ok (none, none)) (fun _ => .ok (.map []))
        (fun t => if t = "custom_fence: \"__PYTHON_TAG_PLACEHOLDER__\"\n"
          then .ok (.map [("custom_fence",
            .str "__PYTHON_TAG_PLACEHOLDER__" false)])
          else .err "unexpected")
        dumpSimple "mkdocs.yml" ""
        "custom_fence: !!python/name:mermaid2.fence_mermaid_custom\n" =
      .ok ("custom_fence: __PYTHON_TAG_PLACEHOLDER__\n",
        [{ key_path := "custom_fence", action := "added",
           new_value := some "__PYTHON_TAG_PLACEHOLDER__" }]) ∧
    strHasSub "custom_fence: __PYTHON_TAG_PLACEHOLDER__\n"
        "!!python/name:" = false := by
  refine ⟨by decide, by decide, by decide, rfl, by decide⟩

end Mkapidocs
